import Mathlib

/-!
Verification of the `archive` repository's core (`internal/archiver`):
the ordered parallel zip packer `ZipParallelAll`, the bounded parallel
unpacker `UnzipParallelAll`, and the zip-slip gate `ensureInside`.

Paths are modelled as `List Char` (the Go `string` values on a Unix
system, where `os.PathSeparator = '/'`).  The standard-library path
functions the code calls (`filepath.Clean`, `filepath.Join`,
`filepath.Base`, `filepath.Dir`, `filepath.Rel`, `sort.Strings`) are
embedded by their lexical algorithms.  The filesystem is modelled as an
association list keyed by canonical (cleaned) paths, represented as a
rooted flag plus the list of path components.
-/

/-- A path component: a run of characters between `/` separators. -/
abbrev Comp := List Char

/-- The component `..`. -/
def dotdot : Comp := ['.', '.']

/-- Split a string on `'/'` (yields at least one, possibly empty, group). -/
def splitSlash : List Char → List Comp
  | [] => [[]]
  | c :: cs =>
    if c = '/' then [] :: splitSlash cs
    else
      match splitSlash cs with
      | [] => [[c]]
      | g :: gs => (c :: g) :: gs

/-- The component-processing loop of Go's `filepath.Clean`: drop empty and
`.` components, resolve `..` against the preceding component, keep leading
`..`s on relative paths and drop them on rooted paths.  `stack` holds the
output components in reverse order. -/
def cleanGo (rooted : Bool) (stack : List Comp) : List Comp → List Comp
  | [] => stack.reverse
  | c :: cs =>
    if c = [] ∨ c = ['.'] then cleanGo rooted stack cs
    else if c = dotdot then
      match stack with
      | [] => if rooted then cleanGo rooted [] cs else cleanGo rooted [dotdot] cs
      | s :: rest => if s = dotdot then cleanGo rooted (dotdot :: s :: rest) cs
                     else cleanGo rooted rest cs
    else cleanGo rooted (c :: stack) cs

/-- A path in canonical form: whether it is rooted (starts with `/`) and its
cleaned component list.  `⟨false, []⟩` renders as `.` and `⟨true, []⟩` as `/`. -/
structure CPath where
  rooted : Bool
  comps : List Comp
deriving DecidableEq, Repr

/-- Canonicalize a raw path string: the component content of Go's
`filepath.Clean`. -/
def cleanC (p : List Char) : CPath :=
  { rooted := p.head? = some '/', comps := cleanGo (p.head? = some '/') [] (splitSlash p) }

/-- Join components with `/` separators. -/
def renderComps : List Comp → List Char
  | [] => []
  | [c] => c
  | c :: cs => c ++ '/' :: renderComps cs

/-- Render a canonical path back to a string, as Go's `filepath.Clean`
outputs it (`.` for an empty relative path, `/` for the bare root). -/
def renderC (p : CPath) : List Char :=
  if p.rooted then '/' :: renderComps p.comps
  else if p.comps = [] then ['.']
  else renderComps p.comps

/-- Go's `filepath.Clean` (Unix): lexical normalization of a path string. -/
def cleanStr (p : List Char) : List Char :=
  if p = [] then ['.'] else renderC (cleanC p)

/-- Go's `filepath.Join` of two elements: empty elements are dropped, the
rest are joined with a separator and the result is cleaned; if every
element is empty the result is the empty string (no cleaning). -/
def joinStr (a b : List Char) : List Char :=
  if a = [] then (if b = [] then [] else cleanStr b)
  else if b = [] then cleanStr a
  else cleanStr (a ++ '/' :: b)

/-- Go's `filepath.Base` (Unix): `.` for the empty string, `/` if the path
is all separators, otherwise the last component after trailing separators
are removed. -/
def baseName (p : List Char) : List Char :=
  if p = [] then ['.']
  else
    let q := (p.reverse.dropWhile (fun c => c = '/')).reverse
    if q = [] then ['/']
    else (q.reverse.takeWhile (fun c => c ≠ '/')).reverse

/-- The parent of a canonical path: drop the final component.  This is
Go's `filepath.Dir` acting on an already-cleaned path (every call site
passes a cleaned path: the output of `filepath.Join` or of
`filepath.Clean`). -/
def parentC (p : CPath) : CPath :=
  { rooted := p.rooted, comps := p.comps.dropLast }

/-- Go's `filepath.Dir` on a cleaned input string. -/
def dirStr (p : List Char) : List Char :=
  renderC (parentC (cleanC p))

/-- `toZipPath` from the source: replace `os.PathSeparator` with `/` (the
identity on Unix, kept for fidelity). -/
def toZipPath (p : List Char) : List Char :=
  p.map (fun c => if c = '/' then '/' else c)

/-- The error message prefix built by `ensureInside`. -/
def slipMsg : List Char :=
  ['z', 'i', 'p', ' ', 's', 'l', 'i', 'p', ' ', 'd', 'e', 't', 'e', 'c', 't', 'e', 'd', ':', ' ']

/-- `ensureInside(baseDir, target)` from the source: clean both paths and
accept when the cleaned target equals the cleaned base or has
`cleanBase + "/"` as a prefix; otherwise report a zip-slip error
(`none` = accepted, `some msg` = the returned error). -/
def ensureInside (baseDir target : List Char) : Option (List Char) :=
  let cleanBase := cleanStr baseDir
  let cleanTarget := cleanStr target
  if cleanTarget = cleanBase then none
  else if (cleanBase ++ ['/']).isPrefixOf cleanTarget then none
  else some (slipMsg ++ target)

/-! ### Packing pipeline (`ZipParallelAll`) -/

/-- What `os.Stat` reports for one walked path: directory flag, permission
bits, file content (read later by the write closure), and the stat error if
the path can no longer be stat'ed at preparation time. -/
structure Meta where
  isDir : Bool
  mode : Nat
  content : List Nat
  statErr : Option (List Char)
deriving DecidableEq, Repr

/-- A zip entry header as the preparer builds it: entry name, compression
method (`0` = Store for directories, `8` = Deflate for files), the
`Modified` stamp (the source sets it to `time.Now()` at preparation), and
`SetMode(st.Mode().Perm())` for files (directories get no mode). -/
structure Hdr where
  name : List Char
  method : Nat
  modified : Int
  mode : Option Nat
deriving DecidableEq, Repr

/-- The payload of one preparer result: an optional header and the bytes
the write closure would stream (`none` for directory and root entries). -/
structure Prep where
  hdr : Option Hdr
  write : Option (List Nat)
deriving DecidableEq, Repr

/-- The `result` record sent over `resCh`: walk index, payload, error. -/
structure WRes (α : Type) where
  idx : Nat
  val : α
  err : Option (List Char)
deriving DecidableEq, Repr

/-- Byte-wise lexicographic order on strings, as `sort.Strings` uses. -/
def lexLe : List Char → List Char → Bool
  | [], _ => true
  | _ :: _, [] => false
  | a :: as, b :: bs => if a = b then lexLe as bs else decide (a < b)

/-- Insert into a `lexLe`-sorted list. -/
def insertSorted (x : List Char) : List (List Char) → List (List Char)
  | [] => [x]
  | y :: ys => if lexLe x y then x :: y :: ys else y :: insertSorted x ys

/-- `sort.Strings`: sort ascending lexicographically. -/
def sortStrings (l : List (List Char)) : List (List Char) :=
  l.foldr insertSorted []

/-- `indexOf` from the source: position of the first occurrence of `x` in
`arr` (every job handed to a preparer is drawn from `arr`, so the absent
case is unreachable; it is mapped to `arr.length`). -/
def indexOf (arr : List (List Char)) (x : List Char) : Nat :=
  match arr with
  | [] => 0
  | a :: rest => if a = x then 0 else indexOf rest x + 1

/-- Go's `filepath.Rel(basepath, targpath)` (Unix, lexical): clean both,
require matching rootedness, drop the common leading components, fail if
the first remaining base component is `..`, and otherwise climb with one
`..` per remaining base component.  `none` is the error case. -/
def dropCommon : List Comp → List Comp → List Comp × List Comp
  | a :: as, b :: bs => if a = b then dropCommon as bs else (a :: as, b :: bs)
  | as, bs => (as, bs)

/-- See `dropCommon`; this is the `filepath.Rel` entry point. -/
def relPath (basep targp : List Char) : Option (List Char) :=
  let B := cleanC basep
  let T := cleanC targp
  if B = T then some ['.']
  else if B.rooted ≠ T.rooted then none
  else
    let rem := dropCommon B.comps T.comps
    if rem.1.head? = some dotdot then none
    else some (renderC { rooted := false, comps := List.replicate rem.1.length dotdot ++ rem.2 })

/-- `relInside` from the source: the in-archive name of walked path `full`.
Single-file mode (`base = ""`) uses the file's base name; the walk root of
a directory archive maps to `base`; any other path is taken relative to
`Dir(srcRoot)` (the `filepath.Rel` error is discarded, yielding `""`). -/
def relInside (srcRoot base full : List Char) : List Char :=
  if base = [] then baseName full
  else if full = srcRoot then base
  else (relPath (dirStr srcRoot) full).getD []

/-- The stat error message for a path missing from the walk tree. -/
def statMsg : List Char := ['s', 't', 'a', 't', ' ', 'f', 'a', 'i', 'l', 'e', 'd']

/-- The preparer worker body for one path `p`: stat it (the walk tree is
the stat oracle; `none` or a recorded `statErr` is the `os.Stat` failure),
then build a directory header (`Store`, name ending in `/`) when
`rel ≠ ""`, nothing for `rel = ""`, or a file header (`Deflate`, permission
bits copied) plus the content-streaming closure. -/
def zipPrepare (src baseDir p : List Char) (now : Int) (st : Option Meta) :
    Prep × Option (List Char) :=
  let rel := relInside src baseDir p
  match st with
  | none => ({ hdr := none, write := none }, some statMsg)
  | some m =>
    match m.statErr with
    | some e => ({ hdr := none, write := none }, some e)
    | none =>
      if m.isDir then
        if rel ≠ [] then
          ({ hdr := some { name := toZipPath rel ++ ['/'], method := 0, modified := now, mode := none },
             write := none }, none)
        else ({ hdr := none, write := none }, none)
      else
        ({ hdr := some { name := toZipPath rel, method := 8, modified := now, mode := some m.mode },
           write := some m.content }, none)

/-- Look up the stat data of a path in the walk tree. -/
def treeStat (tree : List (List Char × Meta)) (p : List Char) : Option Meta :=
  (tree.find? (fun e => e.1 == p)).map (fun e => e.2)

/-- The prepared results of `ZipParallelAll` in walk order: sort the walked
paths (`sort.Strings`), compute `baseDir` from the initial `os.Stat(src)`
(the base name of `src` when it is a directory, `""` otherwise), and run
the preparer on every path with its `indexOf` sequence number.  `src` is
the already-cleaned source path (the function's first step is
`src = filepath.Clean(src)`) and `now` the preparation time stamp. -/
def zipModel (src : List Char) (tree : List (List Char × Meta)) (now : Int) :
    List (WRes Prep) :=
  let paths := sortStrings (tree.map (fun e => e.1))
  let baseDir :=
    match treeStat tree src with
    | some m => if m.isDir then baseName src else []
    | none => []
  paths.map (fun p =>
    let pr := zipPrepare src baseDir p now (treeStat tree p)
    { idx := indexOf paths p, val := pr.1, err := pr.2 })

/-- Look up the pending entry with sequence number `n` (`pending[next]`). -/
def findRes (pending : List (WRes α)) (n : Nat) : Option (WRes α) :=
  pending.find? (fun r => r.idx == n)

/-- Remove the pending entry with sequence number `n` (`delete(pending, next)`). -/
def removeRes (pending : List (WRes α)) (n : Nat) : List (WRes α) :=
  pending.filter (fun r => r.idx != n)

/-- State of the ordered writer's drain loop. -/
structure DrainSt (α : Type) where
  acc : List (WRes α)
  pending : List (WRes α)
  next : Nat
  err : Option (List Char)
deriving Repr

/-- The ordered writer's drain loop: as long as `pending` holds the entry
with the next expected sequence number, return its error if it carries one,
otherwise commit it and advance.  `fuel` only bounds the recursion; every
call passes `pending.length`, which suffices because each step removes the
found entry. -/
def drainP (fuel : Nat) (acc pending : List (WRes α)) (next : Nat) : DrainSt α :=
  match fuel with
  | 0 => { acc := acc, pending := pending, next := next, err := none }
  | fuel + 1 =>
    match findRes pending next with
    | none => { acc := acc, pending := pending, next := next, err := none }
    | some r =>
      if r.err.isSome then { acc := acc, pending := pending, next := next, err := r.err }
      else drainP fuel (acc ++ [r]) (removeRes pending next) (next + 1)

/-- The ordered-writer receive loop of `ZipParallelAll`: take the next
arrived result; if its sequence number is the expected one, surface its
error or commit it and drain the now-contiguous pending entries, otherwise
park it in `pending`.  When the channel closes (`[]`), drain what is
contiguous and stop.  Committing a result models `writeOne`. -/
def owGo (acc pending : List (WRes α)) (next : Nat) :
    List (WRes α) → List (WRes α) × Option (List Char)
  | [] =>
    let d := drainP pending.length acc pending next
    (d.acc, d.err)
  | r :: rest =>
    if r.idx = next then
      if r.err.isSome then (acc, r.err)
      else
        let d := drainP pending.length (acc ++ [r]) pending (next + 1)
        match d.err with
        | some e => (d.acc, some e)
        | none => owGo d.acc d.pending d.next rest
    else owGo acc (r :: pending) next rest

/-- The ordered writer: committed results in commit order, plus the error
`ZipParallelAll` returns (if any), as a function of the arrival order of
the preparer results on `resCh`. -/
def orderedWriter (arrivals : List (WRes α)) : List (WRes α) × Option (List Char) :=
  owGo [] [] 0 arrivals

/-- The position of the first prepared result (in walk order) that carries
an error; the length of the list when none does.  The sequential
commitment of `ZipParallelAll` stops exactly there. -/
def errCut (res : List (WRes α)) : Nat :=
  res.findIdx (fun r => r.err.isSome)

/-- What `writeOne` appends to the zip container for each committed result:
nothing when header and write closure are both absent, the header alone for
directories, header plus streamed bytes for files. -/
def containerOf (committed : List (WRes Prep)) : List (Hdr × Option (List Nat)) :=
  committed.filterMap (fun r => r.val.hdr.map (fun h => (h, r.val.write)))

/-! ### Filesystem model and unpacking pipeline (`UnzipParallelAll`) -/

/-- A filesystem node: a directory with permission bits, or a regular file
with permission bits, content, and (once set) a modification time. -/
inductive FsNode
  | dir (mode : Nat)
  | file (mode : Nat) (content : List Nat) (mtime : Option Int)
deriving DecidableEq, Repr

/-- The filesystem: an association list from canonical paths to nodes;
the most recent binding of a path shadows older ones. -/
abbrev FS := List (CPath × FsNode)

/-- Look up a path's current node. -/
def fsFind (fs : FS) (p : CPath) : Option FsNode :=
  (fs.find? (fun e => e.1 == p)).map (fun e => e.2)

/-- Create or overwrite a path's node. -/
def fsSet (fs : FS) (p : CPath) (n : FsNode) : FS :=
  (p, n) :: fs

/-- `ENOTDIR`: a path component exists as a regular file. -/
def notDirMsg : List Char := ['n', 'o', 't', ' ', 'a', ' ', 'd', 'i', 'r', 'e', 'c', 't', 'o', 'r', 'y']

/-- `EISDIR`: opening a directory for writing. -/
def isDirMsg : List Char := ['i', 's', ' ', 'a', ' ', 'd', 'i', 'r', 'e', 'c', 't', 'o', 'r', 'y']

/-- The nonempty component-list prefixes of a path, shortest first: the
chain of directories `os.MkdirAll` walks down. -/
def prefixesOf (cs : List Comp) : List (List Comp) :=
  (List.range cs.length).map (fun j => cs.take (j + 1))

/-- The creation loop of `os.MkdirAll(·, 0o755)`: walk the ancestor chain,
create each missing directory with mode `0o755` (decimal 493), tolerate
existing directories (`fs.ErrExist` is tolerated at every call site), and
fail with `ENOTDIR` if a regular file is in the way. -/
def mkdirGo (r : Bool) : FS → List (List Comp) → FS × Option (List Char)
  | fs, [] => (fs, none)
  | fs, q :: qs =>
    match fsFind fs { rooted := r, comps := q } with
    | none => mkdirGo r (fsSet fs { rooted := r, comps := q } (FsNode.dir 493)) qs
    | some (FsNode.dir _) => mkdirGo r fs qs
    | some (FsNode.file _ _ _) => (fs, some notDirMsg)

/-- `os.MkdirAll(path, 0o755)` on the canonical form of `path`. -/
def mkdirAll (fs : FS) (t : CPath) : FS × Option (List Char) :=
  mkdirGo t.rooted fs (prefixesOf t.comps)

/-- `os.OpenFile(target, O_CREATE|O_WRONLY|O_TRUNC, mode)` followed by
`io.Copy` and `Close`, collapsed into one step: fail on a directory,
truncate-and-write an existing file (the permission bits of an existing
file are left unchanged — `O_CREATE` applies them only on creation), or
create a fresh file with the given permission bits. -/
def createFile (fs : FS) (t : CPath) (mode : Nat) (content : List Nat) :
    FS × Option (List Char) :=
  match fsFind fs t with
  | some (FsNode.dir _) => (fs, some isDirMsg)
  | some (FsNode.file m _ mt) => (fsSet fs t (FsNode.file m content mt), none)
  | none => (fsSet fs t (FsNode.file mode content none), none)

/-- `os.Chtimes(target, now, modified)`: set a file's modification time;
the source discards the error, so a missing or non-file target is a no-op. -/
def chtimes (fs : FS) (t : CPath) (mtime : Int) : FS :=
  match fsFind fs t with
  | some (FsNode.file m c _) => fsSet fs t (FsNode.file m c (some mtime))
  | _ => fs

/-- One entry of an opened zip archive, as `UnzipParallelAll` reads it:
name, `FileInfo().IsDir()`, `Mode()` permission bits, `Modified` stamp,
and the decompressed content its reader yields. -/
structure UEntry where
  name : List Char
  isDir : Bool
  mode : Nat
  modified : Int
  content : List Nat
deriving DecidableEq, Repr

/-- The `setErr` closure: a buffered channel of capacity one — the first
error wins, later ones are dropped. -/
def setErr (slot r : Option (List Char)) : Option (List Char) :=
  match slot with
  | some e => some e
  | none => r

/-- One restore worker body for a file entry: join the entry name onto the
destination, run the zip-slip gate, ensure the parent directory
(`os.MkdirAll(filepath.Dir(target), 0o755)`), open the compressed stream
(`fault` is the environment's outcome for `f.Open()`; `some` is an I/O
failure), create and fill the destination file, and set its modification
time (best effort).  Every failure is reported without touching anything
further. -/
def restoreOne (destDir : List Char) (fs : FS) (e : UEntry) (fault : Option (List Char)) :
    FS × Option (List Char) :=
  let target := joinStr destDir e.name
  match ensureInside destDir target with
  | some msg => (fs, some msg)
  | none =>
    let tp := cleanC target
    match mkdirAll fs (parentC tp) with
    | (fs1, some msg) => (fs1, some msg)
    | (fs1, none) =>
      match fault with
      | some msg => (fs1, some msg)
      | none =>
        match createFile fs1 tp e.mode e.content with
        | (fs2, some msg) => (fs2, some msg)
        | (fs2, none) => (chtimes fs2 tp e.modified, none)

/-- The sequential directory pre-pass: for every directory entry, gate its
joined target and `MkdirAll` it; the first failure aborts the whole
operation immediately. -/
def prePass (destDir : List Char) : FS → List UEntry → FS × Option (List Char)
  | fs, [] => (fs, none)
  | fs, e :: es =>
    if e.isDir then
      let target := joinStr destDir e.name
      match ensureInside destDir target with
      | some msg => (fs, some msg)
      | none =>
        match mkdirAll fs (cleanC target) with
        | (fs', some msg) => (fs', some msg)
        | (fs', none) => prePass destDir fs' es
    else prePass destDir fs es

/-- The parallel restore pass, serialized by an arbitrary worker schedule
`sched` (each worker owns its own target file and directory creation is
idempotent, so any interleaving acts like some serialization — spec §5).
Directory entries are skipped; each failure is offered to the single-slot
error channel via `setErr` and also recorded in an observation trace
`fails` (schedule order), which the source does not store but which the
theorems below quantify over. -/
def runWorkersTr (destDir : List Char) (entries : List UEntry)
    (fault : Nat → Option (List Char)) :
    FS → Option (List Char) → List (Nat × List Char) → List Nat →
    FS × Option (List Char) × List (Nat × List Char)
  | fs, slot, fails, [] => (fs, slot, fails)
  | fs, slot, fails, i :: is =>
    match entries.get? i with
    | none => runWorkersTr destDir entries fault fs slot fails is
    | some e =>
      if e.isDir then runWorkersTr destDir entries fault fs slot fails is
      else
        match restoreOne destDir fs e (fault i) with
        | (fs', none) => runWorkersTr destDir entries fault fs' slot fails is
        | (fs', some msg) =>
          runWorkersTr destDir entries fault fs' (setErr slot (some msg))
            (fails ++ [(i, msg)]) is

/-- `UnzipParallelAll` with the failure trace exposed: create the
destination directory, run the directory pre-pass, then the restore
workers; return the final filesystem, the returned error (the first-error
slot, drained once at the end), and the failure trace. -/
def unzipParallelAllTr (destDir : List Char) (entries : List UEntry)
    (fault : Nat → Option (List Char)) (sched : List Nat) (fs0 : FS) :
    FS × Option (List Char) × List (Nat × List Char) :=
  match mkdirAll fs0 (cleanC destDir) with
  | (fs1, some msg) => (fs1, some msg, [])
  | (fs1, none) =>
    match prePass destDir fs1 entries with
    | (fs2, some msg) => (fs2, some msg, [])
    | (fs2, none) => runWorkersTr destDir entries fault fs2 none [] sched

/-- `UnzipParallelAll`: final filesystem and returned error. -/
def unzipParallelAll (destDir : List Char) (entries : List UEntry)
    (fault : Nat → Option (List Char)) (sched : List Nat) (fs0 : FS) :
    FS × Option (List Char) :=
  let r := unzipParallelAllTr destDir entries fault sched fs0
  (r.1, r.2.1)

/-- The indices of the file (non-directory) entries: the entries the
parallel pass restores; a complete schedule is a permutation of these. -/
def fileIdxs (entries : List UEntry) : List Nat :=
  (List.range entries.length).filter (fun i =>
    match entries.get? i with
    | some e => !e.isDir
    | none => false)

/-! ### The counting semaphore of the restore pool (`sem`) -/

/-- A restore worker's phase: before `sem <- struct{}{}`, holding the
permit (executing restore steps 1–7), or after `<-sem` (the deferred
release runs on every exit path). -/
inductive WStatus
  | idle
  | active
  | done
deriving DecidableEq, Repr

/-- The number of workers currently holding a permit. -/
def countActive (ws : List WStatus) : Nat :=
  ws.countP (fun s => s == WStatus.active)

/-- Interleaved execution of the worker pool against a counting semaphore
of capacity `cap` (`sem := make(chan struct{}, workers)`): a worker may
acquire only when fewer than `cap` permits are out, and releases when it
finishes, whatever its exit path. -/
inductive SemStep (cap : Nat) : List WStatus → List WStatus → Prop
  | acquire (ws : List WStatus) (i : Nat) (hi : ws.get? i = some WStatus.idle)
      (hc : countActive ws < cap) : SemStep cap ws (ws.set i WStatus.active)
  | release (ws : List WStatus) (i : Nat) (hi : ws.get? i = some WStatus.active) :
      SemStep cap ws (ws.set i WStatus.done)

/-- A pool state reachable from `n` idle workers. -/
def SemReach (cap n : Nat) (s : List WStatus) : Prop :=
  Relation.ReflTransGen (SemStep cap) (List.replicate n WStatus.idle) s

/-! ### Predicates used by the unpacking theorems -/

/-- The canonical destination path of an archive entry. -/
def targetC (destDir : List Char) (e : UEntry) : CPath :=
  cleanC (joinStr destDir e.name)

/-- Distinct file entries restore to distinct canonical destinations (each
destination file is owned by a single worker — spec §3/§5). -/
def TgtNodup (destDir : List Char) (entries : List UEntry) : Prop :=
  ∀ (i j : Nat), i ≠ j →
    ∀ ei ej, entries[i]? = some ei → entries[j]? = some ej →
      ei.isDir = false → ej.isDir = false →
      targetC destDir ei ≠ targetC destDir ej

/-- Paths comparable to the destination root `R`: the root itself or one of
its ancestors (touched only while establishing the root), or a path
lexically inside the root — the only paths unpacking may mutate. -/
def Sanctioned (R q : CPath) : Prop :=
  q.rooted = R.rooted ∧ (q.comps <+: R.comps ∨ R.comps <+: q.comps)

/-- A component as produced by cleaning: nonempty, free of separators, and
not the `.` component. -/
def GoodComp (c : Comp) : Prop :=
  c ≠ [] ∧ '/' ∉ c ∧ c ≠ ['.']

/-- All components of a list are good. -/
def GoodComps (cs : List Comp) : Prop :=
  ∀ c ∈ cs, GoodComp c

/-- Every directory node carries exactly the fixed permission bits `0o755`,
and every file node's permission bits and modification time come from some
archive entry (claim C10's invariant). -/
def C10Inv (entries : List UEntry) (fs : FS) : Prop :=
  (∀ q m, fsFind fs q = some (FsNode.dir m) → m = 493) ∧
  (∀ q m c t, fsFind fs q = some (FsNode.file m c t) →
    m ∈ entries.map UEntry.mode ∧ t ∈ entries.map (fun e => some e.modified))

/-- A filesystem containing only directories (what the directory pre-pass
produces on a fresh destination). -/
def AllDirs (fs : FS) : Prop :=
  ∀ q n, fsFind fs q = some n → ∃ m, n = FsNode.dir m

/-! ### Shape projections and concrete fixtures -/

/-- The time-independent part of a header: everything except `Modified`. -/
def hdrShape (h : Hdr) : List Char × Nat × Option Nat :=
  (h.name, h.method, h.mode)

/-- The time-independent part of a container entry. -/
def entryShape (e : Hdr × Option (List Nat)) :
    (List Char × Nat × Option Nat) × Option (List Nat) :=
  (hdrShape e.1, e.2)

/-- The time-independent part of a preparer result. -/
def wShape (r : WRes Prep) :
    Nat × Option (List Char × Nat × Option Nat) × Option (List Nat) × Option (List Char) :=
  (r.idx, r.val.hdr.map hdrShape, r.val.write, r.err)

/-- The time-independent part of `zipPrepare`'s output. -/
def prepShape (pr : Prep × Option (List Char)) :
    Option (List Char × Nat × Option Nat) × Option (List Nat) × Option (List Char) :=
  (pr.1.hdr.map hdrShape, pr.1.write, pr.2)

/-- Fixture: stat data of a directory. -/
def dirMeta : Meta := { isDir := true, mode := 493, content := [], statErr := none }

/-- Fixture: stat data of a regular file. -/
def fileMeta : Meta := { isDir := false, mode := 420, content := [1, 2, 3], statErr := none }

/-- Fixture: a file whose preparation-time stat fails. -/
def badMeta : Meta := { isDir := false, mode := 420, content := [7], statErr := some ['b', 'o', 'o', 'm'] }

/-- Fixture: the source directory `d`. -/
def srcD : List Char := ['d']

/-- Fixture: the walk of `d` containing one file `d/f`. -/
def treeD : List (List Char × Meta) := [(['d'], dirMeta), (['d', '/', 'f'], fileMeta)]

/-- Fixture: a walk of `d` whose entry `d/f` fails to stat while `d/g` is fine. -/
def treeE : List (List Char × Meta) :=
  [(['d'], dirMeta), (['d', '/', 'f'], badMeta), (['d', '/', 'g'], fileMeta)]

/-- Fixture: the destination directory `out`. -/
def outDir : List Char := ['o', 'u', 't']

/-- Fixture: a file entry named `a/../b` — its name contains a
parent-directory segment but resolves inside the destination. -/
def eDotDot : UEntry :=
  { name := ['a', '/', '.', '.', '/', 'b'], isDir := false, mode := 420,
    modified := 5, content := [1] }

/-- Fixture: the classic zip-slip entry `../evil`. -/
def eEvil : UEntry :=
  { name := ['.', '.', '/', 'e', 'v', 'i', 'l'], isDir := false, mode := 420,
    modified := 5, content := [2] }

/-- Fixture: a benign file entry `d/f`. -/
def eGood : UEntry :=
  { name := ['d', '/', 'f'], isDir := false, mode := 420, modified := 6,
    content := [9, 8] }

/-- Fixture: a directory entry `d/`. -/
def eDir : UEntry :=
  { name := ['d', '/'], isDir := true, mode := 493, modified := 5, content := [] }

/-- Fixture: the fault oracle under which every entry stream opens fine. -/
def noFault : Nat → Option (List Char) := fun _ => none

/-- Fixture: a fault oracle failing entry `k` with an I/O error. -/
def faultAt (k : Nat) : Nat → Option (List Char) :=
  fun i => if i = k then some ['i', 'o', ' ', 'b', 'o', 'o', 'm'] else none

/-- Fixture: a second file entry `d/g`, used to exercise a run in which one
worker fails and another succeeds. -/
def eBadF : UEntry :=
  { name := ['d', '/', 'g'], isDir := false, mode := 384, modified := 7,
    content := [3] }

/-- `TgtNodup` with the quantifiers bounded by the entry count, so that it
is decidable on concrete archives: distinct file entries restore to
distinct canonical destinations. -/
def TgtDisjoint (destDir : List Char) (entries : List UEntry) : Prop :=
  ∀ i, (h1 : i < entries.length) → ∀ j, (h2 : j < entries.length) → i ≠ j →
    (entries.get ⟨i, h1⟩).isDir = false → (entries.get ⟨j, h2⟩).isDir = false →
    targetC destDir (entries.get ⟨i, h1⟩) ≠ targetC destDir (entries.get ⟨j, h2⟩)

instance (destDir : List Char) (entries : List UEntry) :
    Decidable (TgtDisjoint destDir entries) :=
  Nat.decidableBallLT _ _

/-! ## Theorems -/

/-! ### Generic list facts -/

theorem lengthFilterLt {β : Type} (p : β → Bool) (l : List β) (x : β)
    (hx : x ∈ l) (hpx : p x = false) : (l.filter p).length < l.length := by
  induction l with
  | nil => cases hx
  | cons a l ih =>
    rcases List.mem_cons.mp hx with rfl | hmem
    · simp only [List.filter_cons, hpx, Bool.false_eq_true, if_false, List.length_cons]
      have := List.length_filter_le p l
      omega
    · by_cases hpa : p a
      · simp only [List.filter_cons, hpa, if_true, List.length_cons]
        have := ih hmem
        omega
      · have hpa' : p a = false := by simpa using hpa
        simp only [List.filter_cons, hpa', Bool.false_eq_true, if_false, List.length_cons]
        have := ih hmem
        omega

theorem pfxTotal {β : Type} {l1 l2 l : List β} (h1 : l1 <+: l) (h2 : l2 <+: l) :
    l1 <+: l2 ∨ l2 <+: l1 := by
  have e1 := List.prefix_iff_eq_take.mp h1
  have e2 := List.prefix_iff_eq_take.mp h2
  rcases Nat.le_total l1.length l2.length with hle | hle
  · left
    have he : l2.take l1.length = l1 := by
      conv_lhs => rw [e2]
      rw [List.take_take, Nat.min_eq_left hle, ← e1]
    rw [List.prefix_iff_eq_take, he]
  · right
    have he : l1.take l2.length = l2 := by
      conv_lhs => rw [e1]
      rw [List.take_take, Nat.min_eq_left hle, ← e2]
    rw [List.prefix_iff_eq_take, he]

/-! ### The counting semaphore: claim C8 -/

theorem countActiveReplicate (n : Nat) : countActive (List.replicate n WStatus.idle) = 0 := by
  induction n with
  | zero => rfl
  | succ k ih =>
    rw [List.replicate_succ]
    simp only [countActive, List.countP_cons] at ih ⊢
    simp [ih]

theorem countActiveAcquire (ws : List WStatus) (i : Nat)
    (hi : ws.get? i = some WStatus.idle) :
    countActive (ws.set i WStatus.active) = countActive ws + 1 := by
  induction ws generalizing i with
  | nil => simp at hi
  | cons w ws ih =>
    cases i with
    | zero =>
      simp only [List.get?_cons_zero, Option.some.injEq] at hi
      subst hi
      simp [countActive, List.set, List.countP_cons]
    | succ j =>
      simp only [List.get?_cons_succ] at hi
      simp only [List.set, countActive, List.countP_cons] at ih ⊢
      rw [ih j hi]
      omega

theorem countActiveRelease (ws : List WStatus) (i : Nat)
    (hi : ws.get? i = some WStatus.active) :
    countActive (ws.set i WStatus.done) + 1 = countActive ws := by
  induction ws generalizing i with
  | nil => simp at hi
  | cons w ws ih =>
    cases i with
    | zero =>
      simp only [List.get?_cons_zero, Option.some.injEq] at hi
      subst hi
      simp [countActive, List.set, List.countP_cons]
    | succ j =>
      simp only [List.get?_cons_succ] at hi
      simp only [List.set, countActive, List.countP_cons] at ih ⊢
      have := ih j hi
      omega

/-- Claim C8: during unpacking at most `cap` workers (the configured
concurrency cap) execute the restore steps simultaneously: every reachable
state of the permit-guarded worker pool has at most `cap` active workers,
whatever the number `n` of file entries. -/
theorem c8_bounded_concurrency (cap n : Nat) (s : List WStatus)
    (h : SemReach cap n s) : countActive s ≤ cap := by
  induction h with
  | refl => rw [countActiveReplicate]; exact Nat.zero_le cap
  | tail _ hstep ih =>
    cases hstep with
    | acquire i hi hc => rw [countActiveAcquire _ i hi]; omega
    | release i hi => have := countActiveRelease _ i hi; omega

/-- Witness for C8: with cap 2 and 3 workers, the state reached by one
acquisition step has at most 2 active workers. -/
theorem c8_bounded_concurrency_witness :
    countActive ((List.replicate 3 WStatus.idle).set 0 WStatus.active) ≤ 2 :=
  c8_bounded_concurrency 2 3 _
    (Relation.ReflTransGen.single
      (SemStep.acquire (List.replicate 3 WStatus.idle) 0 (by decide) (by decide)))

/-! ### The path-safety gate: claim C7 -/

/-- Claim C7: for every destination root and candidate path, the gate
`ensureInside` accepts (returns no error) exactly when the cleaned
candidate equals the cleaned root or has the cleaned root followed by a
path separator as a prefix; otherwise it returns the path-escape error. -/
theorem c7_gate_iff (baseDir target : List Char) :
    ensureInside baseDir target = none ↔
      (cleanStr target = cleanStr baseDir ∨
        (cleanStr baseDir ++ ['/']) <+: cleanStr target) := by
  simp only [ensureInside]
  by_cases h1 : cleanStr target = cleanStr baseDir
  · rw [if_pos h1]
    exact iff_of_true rfl (Or.inl h1)
  · rw [if_neg h1]
    by_cases h2 : (cleanStr baseDir ++ ['/']).isPrefixOf (cleanStr target)
    · rw [if_pos h2]
      exact iff_of_true rfl (Or.inr (List.isPrefixOf_iff_prefix.mp h2))
    · rw [if_neg h2]
      refine iff_of_false (by simp) ?_
      rintro (hc | hc)
      · exact h1 hc
      · exact h2 (List.isPrefixOf_iff_prefix.mpr hc)

/-! ### Ordered-writer correctness

`res` below is the reference list of prepared results in walk order, so
the result at position `i` carries sequence number `i`; the arrivals on
`resCh` are an arbitrary permutation of it. -/

theorem idxGetElem {α : Type} {res : List (WRes α)}
    (hidx : res.map WRes.idx = List.range res.length) (i : Nat) (hi : i < res.length) :
    res[i].idx = i := by
  have h := congrArg (fun t => t[i]?) hidx
  simp only [List.getElem?_map, List.getElem?_eq_getElem hi] at h
  rw [List.getElem?_range hi] at h
  simpa using h

theorem resGetIdx {α : Type} {res : List (WRes α)}
    (hidx : res.map WRes.idx = List.range res.length) {r : WRes α} (hr : r ∈ res) :
    res[r.idx]? = some r := by
  obtain ⟨i, hi, hget⟩ := List.mem_iff_getElem.mp hr
  have h2 : r.idx = i := by rw [← hget]; exact idxGetElem hidx i hi
  rw [h2, List.getElem?_eq_getElem hi, hget]

theorem errCutLe {α : Type} (res : List (WRes α)) : errCut res ≤ res.length :=
  List.findIdx_le_length _


theorem errCutErrNone {α : Type} {res : List (WRes α)} {j : Nat} (hj : j < res.length)
    (h : j < errCut res) : res[j].err = none := by
  have hp := List.not_of_lt_findIdx h
  cases hres : res[j].err with
  | none => rfl
  | some e => rw [hres] at hp; simp at hp

theorem errCutLeOf {α : Type} {res : List (WRes α)} {j : Nat} (hj : j < res.length)
    (h : res[j].err.isSome) : errCut res ≤ j := by
  by_contra hc
  push_neg at hc
  have hp := List.not_of_lt_findIdx hc
  simp [h] at hp

theorem errCutIsSome {α : Type} {res : List (WRes α)} (h : errCut res < res.length) :
    res[errCut res].err.isSome := by
  have h2 : List.findIdx (fun r => r.err.isSome) res < res.length := h
  simpa using List.findIdx_getElem (w := h2)

theorem permNodupIdx {α : Type} {whole res : List (WRes α)}
    (hidx : res.map WRes.idx = List.range res.length)
    (hperm : whole.Perm res) : (whole.map WRes.idx).Nodup := by
  have h := (hperm.map WRes.idx).nodup_iff.mpr
  rw [hidx] at h
  exact h (List.nodup_range _)

theorem permConsRemove {α : Type} {pending : List (WRes α)} {n : Nat} {r : WRes α}
    (hnd : (pending.map WRes.idx).Nodup) (hf : findRes pending n = some r) :
    pending.Perm (r :: removeRes pending n) := by
  induction pending with
  | nil => simp [findRes] at hf
  | cons x xs ih =>
    rw [List.map_cons, List.nodup_cons] at hnd
    by_cases hx : x.idx = n
    · have hr : r = x := by
        simp only [findRes] at hf
        rw [List.find?_cons_of_pos _ (by simpa using hx)] at hf
        exact (Option.some.inj hf).symm
      subst hr
      have hxs : removeRes xs n = xs := by
        apply List.filter_eq_self.mpr
        intro y hy
        have hyn : y.idx ≠ n := by
          intro he
          apply hnd.1
          have hm : y.idx ∈ List.map WRes.idx xs := List.mem_map_of_mem WRes.idx hy
          rw [hx, ← he]
          exact hm
        simpa using hyn
      have hrc : removeRes (r :: xs) n = removeRes xs n := by
        have hxf : (r.idx != n) = false := by simp [hx]
        simp [removeRes, List.filter_cons, hxf]
      rw [hrc, hxs]
    · have hf' : findRes xs n = some r := by
        simp only [findRes] at hf ⊢
        rwa [List.find?_cons_of_neg _ (by simpa using hx)] at hf
      have hperm2 := ih hnd.2 hf'
      have hrc : removeRes (x :: xs) n = x :: removeRes xs n := by
        have hxt : (x.idx != n) = true := by simpa using hx
        simp [removeRes, List.filter_cons, hxt]
      rw [hrc]
      have h3 : (x :: xs).Perm (x :: r :: removeRes xs n) := hperm2.cons x
      have h4 : (x :: r :: removeRes xs n).Perm (r :: x :: removeRes xs n) :=
        List.Perm.swap r x (removeRes xs n)
      exact h3.trans h4

theorem drainPStep {α : Type} {res : List (WRes α)}
    (hidx : res.map WRes.idx = List.range res.length) :
    ∀ (fuel : Nat) (pending : List (WRes α)) (next : Nat) (rest : List (WRes α)),
      pending.length ≤ fuel →
      next ≤ errCut res →
      (res.take next ++ (pending ++ rest)).Perm res →
      (∃ pend2 next2,
        drainP fuel (res.take next) pending next =
          { acc := res.take next2, pending := pend2, next := next2, err := none } ∧
        next2 ≤ errCut res ∧ findRes pend2 next2 = none ∧
        (res.take next2 ++ (pend2 ++ rest)).Perm res)
      ∨ (∃ pend2 next2 e,
        drainP fuel (res.take next) pending next =
          { acc := res.take (errCut res), pending := pend2, next := next2, err := some e } ∧
        res[errCut res]?.bind WRes.err = some e) := by
  intro fuel
  induction fuel with
  | zero =>
    intro pending next rest hfl hle hperm
    have hpe : pending = [] := List.length_eq_zero.mp (Nat.le_zero.mp hfl)
    subst hpe
    left
    exact ⟨[], next, rfl, hle, rfl, hperm⟩
  | succ fuel ih =>
    intro pending next rest hfl hle hperm
    cases hfind : findRes pending next with
    | none =>
      left
      refine ⟨pending, next, ?_, hle, hfind, hperm⟩
      simp only [drainP, hfind]
    | some r =>
      have hrp : r ∈ pending := List.mem_of_find?_eq_some hfind
      have hrres : r ∈ res := hperm.mem_iff.mp (by simp [hrp])
      have hreq : r.idx = next := by simpa using List.find?_some hfind
      have hget : res[next]? = some r := hreq ▸ resGetIdx hidx hrres
      have hnlt : next < res.length := by
        by_contra hc
        push_neg at hc
        rw [List.getElem?_eq_none hc] at hget
        cases hget
      have hre : res[next] = r := by
        rw [List.getElem?_eq_getElem hnlt] at hget
        exact Option.some.inj hget
      by_cases herr : r.err.isSome
      · right
        have hcut : errCut res = next := Nat.le_antisymm (errCutLeOf hnlt (hre ▸ herr)) hle
        obtain ⟨e, he⟩ := Option.isSome_iff_exists.mp herr
        refine ⟨pending, next, e, ?_, ?_⟩
        · have hD : drainP (fuel + 1) (res.take next) pending next =
              { acc := res.take next, pending := pending, next := next, err := r.err } := by
            simp only [drainP, hfind]
            rw [if_pos herr]
          rw [hD, hcut, he]
        · rw [hcut, hget]
          exact he
      · have hnd : (pending.map WRes.idx).Nodup := by
          have hsub : pending.Sublist (res.take next ++ (pending ++ rest)) :=
            (List.sublist_append_left pending rest).trans (List.sublist_append_right _ _)
          exact List.Nodup.sublist (hsub.map WRes.idx) (permNodupIdx hidx hperm)
        have hpr := permConsRemove hnd hfind
        have hfl' : (removeRes pending next).length ≤ fuel := by
          have := hpr.length_eq
          simp only [List.length_cons] at this
          omega
        have hacc' : res.take next ++ [r] = res.take (next + 1) := by
          rw [List.take_succ, hget]
          rfl
        have hle' : next + 1 ≤ errCut res := by
          rcases Nat.lt_or_ge next (errCut res) with hlt | hge
          · omega
          · exfalso
            have hcut : errCut res = next := Nat.le_antisymm hge hle
            have hlt2 : errCut res < res.length := by omega
            have hsome := errCutIsSome hlt2
            have he2 : res[errCut res]? = res[next]? := by rw [hcut]
            rw [List.getElem?_eq_getElem hlt2, hget] at he2
            have he3 : res[errCut res] = r := Option.some.inj he2
            rw [he3] at hsome
            exact herr hsome
        have hperm' : (res.take (next + 1) ++ (removeRes pending next ++ rest)).Perm res := by
          rw [← hacc']
          have h1 : (res.take next ++ [r]) ++ (removeRes pending next ++ rest) =
              res.take next ++ (r :: (removeRes pending next ++ rest)) := by simp
          rw [h1]
          have h2 : (r :: (removeRes pending next ++ rest)).Perm (pending ++ rest) :=
            (hpr.append_right rest).symm
          exact (h2.append_left _).trans hperm
        have hrec := ih (removeRes pending next) (next + 1) rest hfl' hle' hperm'
        have hstepeq : drainP (fuel + 1) (res.take next) pending next =
            drainP fuel (res.take (next + 1)) (removeRes pending next) (next + 1) := by
          simp only [drainP, hfind]
          rw [if_neg herr, hacc']
        rw [hstepeq]
        exact hrec

theorem owGoSpec {α : Type} {res : List (WRes α)}
    (hidx : res.map WRes.idx = List.range res.length) :
    ∀ (rest pending : List (WRes α)) (next : Nat),
      next ≤ errCut res →
      (res.take next ++ (pending ++ rest)).Perm res →
      owGo (res.take next) pending next rest =
        (res.take (errCut res), res[errCut res]?.bind WRes.err) := by
  intro rest
  induction rest with
  | nil =>
    intro pending next hle hperm
    have hstep := drainPStep hidx pending.length pending next [] (Nat.le_refl _) hle hperm
    rcases hstep with ⟨p2, n2, hD, hle2, hfind2, hp2⟩ | ⟨p2, n2, e, hD, he⟩
    · have hpp : p2.Perm (res.drop n2) := by
        have hsp : res.Perm (res.take n2 ++ res.drop n2) := by
          rw [List.take_append_drop]
        have h6 : (res.take n2 ++ p2).Perm (res.take n2 ++ res.drop n2) := by
          have h7 := hp2
          rw [List.append_nil] at h7
          exact h7.trans hsp
        exact (List.perm_append_left_iff _).mp h6
      have hge : res.length ≤ n2 := by
        by_contra hc
        push_neg at hc
        have hmem : res[n2] ∈ res.drop n2 := by
          rw [List.drop_eq_getElem_cons hc]
          exact List.mem_cons_self _ _
        have hmemp : res[n2] ∈ p2 := hpp.mem_iff.mpr hmem
        have hidxe := idxGetElem hidx n2 hc
        have hnone := List.find?_eq_none.mp hfind2 _ hmemp
        simp [hidxe] at hnone
      have hcutle := errCutLe res
      have hcut : errCut res = n2 := by omega
      simp only [owGo]
      rw [hD]
      have hnone : res[errCut res]? = none := List.getElem?_eq_none (by omega)
      rw [hnone, hcut]
      rfl
    · simp only [owGo]
      rw [hD, he]
  | cons r rest ih =>
    intro pending next hle hperm
    simp only [owGo]
    by_cases hr : r.idx = next
    · rw [if_pos hr]
      have hrres : r ∈ res := hperm.mem_iff.mp (by simp)
      have hget : res[next]? = some r := hr ▸ resGetIdx hidx hrres
      have hnlt : next < res.length := by
        by_contra hc
        push_neg at hc
        rw [List.getElem?_eq_none hc] at hget
        cases hget
      have hre : res[next] = r := by
        rw [List.getElem?_eq_getElem hnlt] at hget
        exact Option.some.inj hget
      by_cases herr : r.err.isSome
      · rw [if_pos herr]
        have hcut : errCut res = next := Nat.le_antisymm (errCutLeOf hnlt (hre ▸ herr)) hle
        rw [hcut, hget]
        rfl
      · rw [if_neg herr]
        have hacc' : res.take next ++ [r] = res.take (next + 1) := by
          rw [List.take_succ, hget]
          rfl
        have hle' : next + 1 ≤ errCut res := by
          rcases Nat.lt_or_ge next (errCut res) with hlt | hge
          · omega
          · exfalso
            have hcut : errCut res = next := Nat.le_antisymm hge hle
            have hlt2 : errCut res < res.length := by omega
            have hsome := errCutIsSome hlt2
            have he2 : res[errCut res]? = res[next]? := by rw [hcut]
            rw [List.getElem?_eq_getElem hlt2, hget] at he2
            have he3 : res[errCut res] = r := Option.some.inj he2
            rw [he3] at hsome
            exact herr hsome
        have hperm' : (res.take (next + 1) ++ (pending ++ rest)).Perm res := by
          rw [← hacc']
          have h1 : (res.take next ++ [r]) ++ (pending ++ rest) =
              res.take next ++ (r :: (pending ++ rest)) := by simp
          rw [h1]
          have h0 : (pending ++ (r :: rest)).Perm (r :: (pending ++ rest)) := List.perm_middle
          exact ((h0.symm).append_left _).trans hperm
        rw [hacc']
        have hstep := drainPStep hidx pending.length pending (next + 1) rest
          (Nat.le_refl _) hle' hperm'
        rcases hstep with ⟨p2, n2, hD, hle2, hfind2, hp2⟩ | ⟨p2, n2, e, hD, he⟩
        · rw [hD]
          exact ih p2 n2 hle2 hp2
        · rw [hD, he]
    · rw [if_neg hr]
      apply ih (r :: pending) next hle
      have h0 : (pending ++ (r :: rest)).Perm (r :: (pending ++ rest)) := List.perm_middle
      have h2 : ((r :: pending) ++ rest).Perm (pending ++ (r :: rest)) := by
        simpa using h0.symm
      exact (h2.append_left _).trans hperm

/-- The ordered writer's master property: for arrivals that are any
permutation of the walk-ordered results, the committed list is the
walk-order list cut at the first error position, and the returned error is
that of the first erroneous result in walk order (none when none errs). -/
theorem orderedWriterSpec {α : Type} {res arrivals : List (WRes α)}
    (hidx : res.map WRes.idx = List.range res.length)
    (hperm : arrivals.Perm res) :
    orderedWriter arrivals = (res.take (errCut res), res[errCut res]?.bind WRes.err) := by
  have h := owGoSpec hidx arrivals [] 0 (Nat.zero_le _) (by simpa using hperm)
  simpa [orderedWriter] using h

/-! ### The packing pipeline: claims C1 and C5 -/

theorem insertSortedPerm (x : List Char) (l : List (List Char)) :
    (insertSorted x l).Perm (x :: l) := by
  induction l with
  | nil => exact List.Perm.refl _
  | cons y ys ih =>
    simp only [insertSorted]
    by_cases h : lexLe x y
    · rw [if_pos h]
    · rw [if_neg h]
      exact (ih.cons y).trans (List.Perm.swap x y ys)

theorem sortStringsPerm (l : List (List Char)) : (sortStrings l).Perm l := by
  induction l with
  | nil => exact List.Perm.refl _
  | cons x xs ih =>
    simp only [sortStrings, List.foldr_cons] at ih ⊢
    exact (insertSortedPerm x _).trans (ih.cons x)

theorem nodupIndexOf (arr : List (List Char)) (h : arr.Nodup) (i : Nat) (hi : i < arr.length) :
    indexOf arr arr[i] = i := by
  induction arr generalizing i with
  | nil => simp at hi
  | cons a rest ih =>
    rw [List.nodup_cons] at h
    cases i with
    | zero => simp [indexOf]
    | succ j =>
      have hj : j < rest.length := by simpa using hi
      have hne : a ≠ rest[j] := by
        intro he
        exact h.1 (he ▸ List.getElem_mem hj)
      simp only [indexOf, List.getElem_cons_succ]
      rw [if_neg hne, ih h.2 j hj]

theorem mapIndexOfRange (arr : List (List Char)) (h : arr.Nodup) :
    arr.map (fun p => indexOf arr p) = List.range arr.length := by
  apply List.ext_getElem
  · simp
  · intro i h1 h2
    simp only [List.getElem_map, List.getElem_range]
    exact nodupIndexOf arr h i (by simpa using h1)

theorem zipModelIdx (src : List Char) (tree : List (List Char × Meta)) (now : Int)
    (hnd : (tree.map (fun e => e.1)).Nodup) :
    (zipModel src tree now).map WRes.idx = List.range (zipModel src tree now).length := by
  have hpn : (sortStrings (tree.map (fun e => e.1))).Nodup :=
    (sortStringsPerm _).nodup_iff.mpr hnd
  simp only [zipModel, List.map_map, List.length_map]
  have : (WRes.idx ∘ fun p =>
      { idx := indexOf (sortStrings (tree.map (fun e => e.1))) p,
        val := (zipPrepare src
          (match treeStat tree src with
           | some m => if m.isDir then baseName src else []
           | none => []) p now (treeStat tree p)).1,
        err := (zipPrepare src
          (match treeStat tree src with
           | some m => if m.isDir then baseName src else []
           | none => []) p now (treeStat tree p)).2 } : List Char → Nat) =
      fun p => indexOf (sortStrings (tree.map (fun e => e.1))) p := rfl
  rw [this, mapIndexOfRange _ hpn]

/-- Error-free runs of the pipeline: the writer commits the whole
walk-ordered prepared sequence and returns no error, for any arrival
permutation. -/
theorem owNoErr (src : List Char) (tree : List (List Char × Meta))
    (now : Int) (arrivals : List (WRes Prep))
    (hnd : (tree.map (fun e => e.1)).Nodup)
    (herr : ∀ r ∈ zipModel src tree now, r.err = none)
    (hperm : arrivals.Perm (zipModel src tree now)) :
    orderedWriter arrivals = (zipModel src tree now, none) := by
  have hidx := zipModelIdx src tree now hnd
  have hcut : errCut (zipModel src tree now) = (zipModel src tree now).length := by
    apply List.findIdx_eq_length.mpr
    intro r hr
    simp [herr r hr]
  have h := orderedWriterSpec hidx hperm
  rw [hcut, List.take_length, List.getElem?_eq_none (Nat.le_refl _)] at h
  simpa using h

/-- Claim C1: for every source tree whose walk has no duplicate paths and
whose entries all prepare without error, and for every order in which the
parallel preparer workers deliver their results, the committed sequence is
exactly the walk-ordered (lexicographically sorted) prepared sequence:
sequence numbers are committed strictly increasingly, each exactly once,
independent of arrival order. -/
theorem c1_ordered_commitment (src : List Char) (tree : List (List Char × Meta))
    (now : Int) (arrivals : List (WRes Prep))
    (hnd : (tree.map (fun e => e.1)).Nodup)
    (herr : ∀ r ∈ zipModel src tree now, r.err = none)
    (hperm : arrivals.Perm (zipModel src tree now)) :
    orderedWriter arrivals = (zipModel src tree now, none) ∧
    (orderedWriter arrivals).1.map WRes.idx = List.range (zipModel src tree now).length := by
  have h := owNoErr src tree now arrivals hnd herr hperm
  refine ⟨h, ?_⟩
  rw [h]
  exact zipModelIdx src tree now hnd

/-- Witness for C1: delivering the two prepared results of the tree `d`
in reverse order still commits them in walk order with no error. -/
theorem c1_ordered_commitment_witness :
    orderedWriter ((zipModel srcD treeD 0).reverse) = (zipModel srcD treeD 0, none) :=
  (c1_ordered_commitment srcD treeD 0 _ (by decide) (by decide) (List.reverse_perm _)).1

/-- Claim C5: when some prepared entries carry errors, the pack operation
returns the error of the erroneous entry with the smallest sequence number
(not the first to arrive: any arrival permutation gives the same outcome),
and the committed prefix is exactly all entries with smaller sequence
numbers. -/
theorem c5_earliest_error (src : List Char) (tree : List (List Char × Meta))
    (now : Int) (arrivals : List (WRes Prep))
    (hnd : (tree.map (fun e => e.1)).Nodup)
    (hperm : arrivals.Perm (zipModel src tree now))
    (hex : ∃ r ∈ zipModel src tree now, r.err.isSome) :
    orderedWriter arrivals =
      ((zipModel src tree now).take (errCut (zipModel src tree now)),
        (zipModel src tree now)[errCut (zipModel src tree now)]?.bind WRes.err) ∧
    (orderedWriter arrivals).2.isSome := by
  have hidx := zipModelIdx src tree now hnd
  have h := orderedWriterSpec hidx hperm
  have hlt : errCut (zipModel src tree now) < (zipModel src tree now).length := by
    apply List.findIdx_lt_length_of_exists
    obtain ⟨r, hr, he⟩ := hex
    exact ⟨r, hr, by simpa using he⟩
  refine ⟨h, ?_⟩
  rw [h]
  have hsome := errCutIsSome hlt
  rw [List.getElem?_eq_getElem hlt]
  simpa using hsome

/-- Witness for C5: with `d/f` failing to stat and results arriving in
reverse order, the writer commits only the entries before sequence 1 and
returns the stat error of `d/f`, not anything from the later arrivals. -/
theorem c5_earliest_error_witness :
    (orderedWriter ((zipModel srcD treeE 0).reverse) =
      ((zipModel srcD treeE 0).take (errCut (zipModel srcD treeE 0)),
        (zipModel srcD treeE 0)[errCut (zipModel srcD treeE 0)]?.bind WRes.err)) ∧
    (orderedWriter ((zipModel srcD treeE 0).reverse)).2.isSome :=
  c5_earliest_error srcD treeE 0 _ (by decide) (List.reverse_perm _) (by decide)

/-! ### Reproducibility: claim C3 -/

/-- Counterexample to C3 as stated: packing the same unmodified tree at two
different clock readings commits containers that are not identical — every
header's `Modified` field records `time.Now()` at preparation time, so two
runs of `ZipParallelAll` do not produce byte-identical archives. -/
theorem c3_counterexample :
    containerOf (orderedWriter (zipModel srcD treeD 0)).1 ≠
      containerOf (orderedWriter (zipModel srcD treeD 1)).1 := by decide

theorem zipPrepareTimeIndep (src baseDir p : List Char) (n1 n2 : Int) (st : Option Meta) :
    prepShape (zipPrepare src baseDir p n1 st) = prepShape (zipPrepare src baseDir p n2 st) := by
  cases st with
  | none => rfl
  | some m =>
    simp only [zipPrepare]
    cases hse : m.statErr with
    | some e => rfl
    | none =>
      by_cases hd : m.isDir
      · rw [if_pos hd, if_pos hd]
        by_cases hrel : relInside src baseDir p ≠ []
        · rw [if_pos hrel, if_pos hrel]
          rfl
        · rw [if_neg hrel, if_neg hrel]
      · rw [if_neg hd, if_neg hd]
        rfl

theorem zipModelTimeIndep (src : List Char) (tree : List (List Char × Meta)) (n1 n2 : Int) :
    (zipModel src tree n1).map wShape = (zipModel src tree n2).map wShape := by
  simp only [zipModel, List.map_map]
  apply List.map_congr_left
  intro p hp
  have h := zipPrepareTimeIndep src
    (match treeStat tree src with
     | some m => if m.isDir then baseName src else []
     | none => []) p n1 n2 (treeStat tree p)
  simp only [prepShape, Prod.mk.injEq] at h
  simp only [Function.comp, wShape, Prod.mk.injEq]
  exact ⟨by trivial, h.1, h.2.1, h.2.2⟩

theorem zipModelErrTransfer (src : List Char) (tree : List (List Char × Meta))
    (n1 n2 : Int) (herr : ∀ r ∈ zipModel src tree n1, r.err = none) :
    ∀ r ∈ zipModel src tree n2, r.err = none := by
  intro r hr
  have hsh := zipModelTimeIndep src tree n1 n2
  obtain ⟨i, hi, hget⟩ := List.mem_iff_getElem.mp hr
  have hlen : (zipModel src tree n1).length = (zipModel src tree n2).length := by
    have := congrArg List.length hsh
    simpa using this
  have hi1 : i < (zipModel src tree n1).length := by omega
  have hq := congrArg (fun t => t[i]?) hsh
  simp only [List.getElem?_map, List.getElem?_eq_getElem hi1,
    List.getElem?_eq_getElem hi, Option.map_some'] at hq
  have hw := Option.some.inj hq
  have herr1 := herr _ (List.getElem_mem hi1)
  have he : (zipModel src tree n2)[i].err = (zipModel src tree n1)[i].err := by
    have h2 := congrArg (fun q => q.2.2.2) hw
    simp only [wShape] at h2
    exact h2.symm
  rw [← hget, he, herr1]

theorem containerShapeEq : ∀ (L1 L2 : List (WRes Prep)),
    L1.map wShape = L2.map wShape →
    (containerOf L1).map entryShape = (containerOf L2).map entryShape := by
  intro L1
  induction L1 with
  | nil =>
    intro L2 h
    cases L2 with
    | nil => rfl
    | cons s M => simp at h
  | cons r L ih =>
    intro L2 h
    cases L2 with
    | nil => simp at h
    | cons s M =>
      simp only [List.map_cons, List.cons.injEq] at h
      have hh : r.val.hdr.map hdrShape = s.val.hdr.map hdrShape := by
        have h3 := congrArg (fun q => q.2.1) h.1
        simpa [wShape] using h3
      have hw : r.val.write = s.val.write := by
        have h3 := congrArg (fun q => q.2.2.1) h.1
        simpa [wShape] using h3
      cases hro : r.val.hdr with
      | none =>
        have hso : s.val.hdr = none := by
          rw [hro] at hh
          cases hsx : s.val.hdr
          · rfl
          · rw [hsx] at hh; simp at hh
        simp only [containerOf, List.filterMap_cons, hro, hso, Option.map_none']
        exact ih M h.2
      | some hrv =>
        obtain ⟨hsv, hso⟩ : ∃ v, s.val.hdr = some v := by
          rw [hro] at hh
          cases hsx : s.val.hdr
          · rw [hsx] at hh; simp at hh
          · exact ⟨_, rfl⟩
        have hhv : hdrShape hrv = hdrShape hsv := by
          rw [hro, hso] at hh
          simpa using hh
        simp only [containerOf, List.filterMap_cons, hro, hso, Option.map_some', List.map_cons]
        congr 1
        · simp [entryShape, hhv, hw]
        · exact ih M h.2

/-- Claim C3 (amended): two runs of the pack pipeline on the same
unmodified duplicate-free error-free tree commit containers with identical
entry sequences — same names, same order, same compression methods,
permission bits and content — whatever the clock readings and arrival
orders; byte-identity fails only because each header's `Modified` stamp is
taken from the wall clock at preparation time (see the counterexample). -/
theorem c3_amended (src : List Char) (tree : List (List Char × Meta))
    (now1 now2 : Int) (arr1 arr2 : List (WRes Prep))
    (hnd : (tree.map (fun e => e.1)).Nodup)
    (herr : ∀ r ∈ zipModel src tree now1, r.err = none)
    (h1 : arr1.Perm (zipModel src tree now1))
    (h2 : arr2.Perm (zipModel src tree now2)) :
    (containerOf (orderedWriter arr1).1).map entryShape =
      (containerOf (orderedWriter arr2).1).map entryShape ∧
    (orderedWriter arr1).2 = none ∧ (orderedWriter arr2).2 = none := by
  have herr2 := zipModelErrTransfer src tree now1 now2 herr
  have e1 := owNoErr src tree now1 arr1 hnd herr h1
  have e2 := owNoErr src tree now2 arr2 hnd herr2 h2
  refine ⟨?_, by rw [e1], by rw [e2]⟩
  rw [e1, e2]
  exact containerShapeEq _ _ (zipModelTimeIndep src tree now1 now2)

/-- Witness for C3 (amended): the two runs of the counterexample commit
shape-identical containers. -/
theorem c3_amended_witness :
    (containerOf (orderedWriter (zipModel srcD treeD 0)).1).map entryShape =
      (containerOf (orderedWriter (zipModel srcD treeD 1)).1).map entryShape :=
  (c3_amended srcD treeD 0 1 _ _ (by decide) (by decide)
    (List.Perm.refl _) (List.Perm.refl _)).1

/-! ### Single-file packing: claim C9 -/

theorem c9ZipModelSingle (src : List Char) (m : Meta) (now : Int)
    (hdir : m.isDir = false) (hst : m.statErr = none) :
    zipModel src [(src, m)] now =
      [{ idx := 0,
         val := { hdr := some { name := toZipPath (baseName src), method := 8,
                                modified := now, mode := some m.mode },
                  write := some m.content },
         err := none }] := by
  have hts : treeStat [(src, m)] src = some m := by
    simp [treeStat, List.find?]
  have hpaths : sortStrings [src] = [src] := by
    simp [sortStrings, insertSorted]
  simp only [zipModel, List.map_cons, List.map_nil, hpaths, hts, hdir]
  simp only [Bool.false_eq_true, if_false, indexOf, if_pos rfl]
  simp only [zipPrepare, hst, hdir, Bool.false_eq_true, if_false, relInside]
  simp

/-- Claim C9: packing a single file (not a directory) commits exactly one
container entry, whose name is the file's base name, whatever the depth of
the file's path, for any arrival order of the preparer results. -/
theorem c9_single_file (src : List Char) (m : Meta) (now : Int)
    (arrivals : List (WRes Prep))
    (hdir : m.isDir = false) (hst : m.statErr = none)
    (hperm : arrivals.Perm (zipModel src [(src, m)] now)) :
    containerOf (orderedWriter arrivals).1 =
      [({ name := toZipPath (baseName src), method := 8, modified := now,
          mode := some m.mode }, some m.content)] ∧
    (orderedWriter arrivals).2 = none := by
  have hres := c9ZipModelSingle src m now hdir hst
  have h := owNoErr src [(src, m)] now arrivals (by simp) ?herr hperm
  case herr =>
    intro r hr
    rw [hres] at hr
    simp only [List.mem_singleton] at hr
    rw [hr]
  refine ⟨?_, by rw [h]⟩
  rw [h, hres]
  simp [containerOf]

/-- Witness for C9: packing the deeply nested single file `/a/b/c.txt`
produces one entry named `c.txt`. -/
theorem c9_single_file_witness :
    containerOf (orderedWriter (zipModel ['/', 'a', '/', 'b', '/', 'c', '.', 't', 'x', 't']
        [(['/', 'a', '/', 'b', '/', 'c', '.', 't', 'x', 't'], fileMeta)] 0)).1 =
      [({ name := toZipPath (baseName ['/', 'a', '/', 'b', '/', 'c', '.', 't', 'x', 't']),
          method := 8, modified := 0, mode := some fileMeta.mode }, some fileMeta.content)] :=
  (c9_single_file _ fileMeta 0 _ (by decide) (by decide) (List.Perm.refl _)).1

/-! ### Directory entries and the root: claim C4 -/

theorem dropWhileHeadFalse {β : Type} (q : β → Bool) :
    ∀ (l : List β) (a : β) (t : List β), l.dropWhile q = a :: t → q a = false := by
  intro l
  induction l with
  | nil => intro a t h; cases h
  | cons x xs ih =>
    intro a t h
    by_cases hx : q x
    · rw [List.dropWhile_cons_of_pos hx] at h
      exact ih a t h
    · rw [List.dropWhile_cons_of_neg hx] at h
      cases h
      simpa using hx

theorem baseNameNeNil (p : List Char) : baseName p ≠ [] := by
  simp only [baseName]
  by_cases hp : p = []
  · simp [hp]
  · rw [if_neg hp]
    by_cases hq : (p.reverse.dropWhile (fun c => c = '/')).reverse = []
    · simp [hq]
    · rw [if_neg hq]
      cases hqr : p.reverse.dropWhile (fun c => c = '/') with
      | nil => exact absurd (by simp [hqr]) hq
      | cons a t =>
        have ha : (a = '/') = False := by
          have h3 := dropWhileHeadFalse (fun c => c = '/') p.reverse a t hqr
          simpa using h3
        rw [List.reverse_reverse]
        simp [List.takeWhile_cons, ha]

/-- Counterexample to C4 as stated: packing the whole directory `d`
(containing the file `d/f`) commits a container entry for the source root
itself, named `d/` — the claim says the archive contains no entry for the
root, but the "nothing to write" branch is never taken because `relInside`
maps the root to its (nonempty) base name. -/
theorem c4_counterexample :
    (containerOf (orderedWriter (zipModel srcD treeD 0)).1).map (fun e => e.1.name) =
      [['d', '/'], ['d', '/', 'f']] := by decide

/-- Claim C4 (amended): when packing a whole directory, the source root
itself also receives a metadata-only entry, whose name is the root's base
name followed by the path separator; and every other directory whose
computed in-archive name is nonempty receives a metadata-only entry whose
name ends with the separator.  (No directory is ever skipped: the root's
in-archive name is its base name, which is never empty.) -/
theorem c4_amended (src p : List Char) (m : Meta) (now : Int)
    (hdir : m.isDir = true) (hst : m.statErr = none) :
    zipPrepare src (baseName src) src now (some m) =
      ({ hdr := some { name := toZipPath (baseName src) ++ ['/'], method := 0,
                       modified := now, mode := none },
         write := none }, none) ∧
    (relInside src (baseName src) p ≠ [] →
      zipPrepare src (baseName src) p now (some m) =
        ({ hdr := some { name := toZipPath (relInside src (baseName src) p) ++ ['/'],
                         method := 0, modified := now, mode := none },
           write := none }, none)) := by
  constructor
  · have hrel : relInside src (baseName src) src = baseName src := by
      simp [relInside, baseNameNeNil src]
    simp only [zipPrepare, hst, hdir, hrel, if_true]
    rw [if_pos (baseNameNeNil src)]
  · intro hrel
    simp only [zipPrepare, hst, hdir, if_true]
    rw [if_pos hrel]

/-- Witness for C4 (amended): preparing the root `d` of a whole-directory
archive emits the metadata-only entry `d/`, not "nothing to write". -/
theorem c4_amended_witness :
    zipPrepare srcD (baseName srcD) srcD 0 (some dirMeta) =
      ({ hdr := some { name := toZipPath (baseName srcD) ++ ['/'], method := 0,
                       modified := 0, mode := none },
         write := none }, none) :=
  (c4_amended srcD srcD dirMeta 0 (by decide) (by decide)).1

/-! ### Canonical paths: the render/prefix bridge -/

theorem cleanStrEq (p : List Char) : cleanStr p = renderC (cleanC p) := by
  by_cases hp : p = []
  · subst hp
    rfl
  · simp [cleanStr, hp]

theorem splitSlashNoSlash (p : List Char) : ∀ c ∈ splitSlash p, '/' ∉ c := by
  induction p with
  | nil =>
    intro c hc
    simp only [splitSlash, List.mem_singleton] at hc
    subst hc
    simp
  | cons x xs ih =>
    intro c hc
    simp only [splitSlash] at hc
    by_cases hx : x = '/'
    · rw [if_pos hx] at hc
      rcases List.mem_cons.mp hc with rfl | hmem
      · simp
      · exact ih c hmem
    · rw [if_neg hx] at hc
      cases hsp : splitSlash xs with
      | nil =>
        rw [hsp] at hc
        simp only [List.mem_singleton] at hc
        subst hc
        intro hmem
        rw [List.mem_singleton] at hmem
        exact hx hmem.symm
      | cons g gs =>
        rw [hsp] at hc
        rcases List.mem_cons.mp hc with rfl | hmem
        · have hg : '/' ∉ g := ih g (by rw [hsp]; exact List.mem_cons_self _ _)
          intro hmem
          rcases List.mem_cons.mp hmem with he | hm
          · exact hx he.symm
          · exact hg hm
        · exact ih c (by rw [hsp]; exact List.mem_cons_of_mem _ hmem)

theorem cleanGoGood (r : Bool) :
    ∀ (cs stack : List Comp), (∀ c ∈ cs, '/' ∉ c) → GoodComps stack →
      GoodComps (cleanGo r stack cs) := by
  intro cs
  induction cs with
  | nil =>
    intro stack hcs hst c hc
    simp only [cleanGo] at hc
    exact hst c (List.mem_reverse.mp hc)
  | cons c cs ih =>
    intro stack hcs hst
    have hcs' : ∀ d ∈ cs, '/' ∉ d := fun d hd => hcs d (List.mem_cons_of_mem _ hd)
    simp only [cleanGo]
    by_cases h1 : c = [] ∨ c = ['.']
    · rw [if_pos h1]
      exact ih stack hcs' hst
    · rw [if_neg h1]
      by_cases h2 : c = dotdot
      · rw [if_pos h2]
        cases stack with
        | nil =>
          by_cases hr : r
          · rw [if_pos hr]
            exact ih [] hcs' (fun d hd => absurd hd (List.not_mem_nil d))
          · rw [if_neg hr]
            apply ih [dotdot] hcs'
            intro d hd
            rw [List.mem_singleton.mp hd]
            exact ⟨by simp [dotdot], by simp [dotdot], by simp [dotdot]⟩
        | cons s rest =>
          show GoodComps (if s = dotdot then cleanGo r (dotdot :: s :: rest) cs
            else cleanGo r rest cs)
          by_cases hs : s = dotdot
          · rw [if_pos hs]
            apply ih (dotdot :: s :: rest) hcs'
            intro d hd
            rcases List.mem_cons.mp hd with rfl | hd2
            · exact ⟨by simp [dotdot], by simp [dotdot], by simp [dotdot]⟩
            · exact hst d hd2
          · rw [if_neg hs]
            exact ih rest hcs' (fun d hd => hst d (List.mem_cons_of_mem _ hd))
      · rw [if_neg h2]
        apply ih (c :: stack) hcs'
        intro d hd
        rcases List.mem_cons.mp hd with rfl | hd2
        · push_neg at h1
          exact ⟨h1.1, hcs d (List.mem_cons_self _ _), h1.2⟩
        · exact hst d hd2

theorem cleanCGood (p : List Char) : GoodComps (cleanC p).comps := by
  simp only [cleanC]
  exact cleanGoGood _ _ [] (splitSlashNoSlash p) (fun c hc => absurd hc (List.not_mem_nil c))

theorem compPfxCons : ∀ (a b u v : List Char), '/' ∉ a → '/' ∉ b →
    (a ++ '/' :: u) <+: (b ++ '/' :: v) → a = b ∧ u <+: v := by
  intro a
  induction a with
  | nil =>
    intro b u v _ hb h
    cases b with
    | nil =>
      refine ⟨rfl, ?_⟩
      rw [List.nil_append, List.nil_append] at h
      exact (List.cons_prefix_cons.mp h).2
    | cons y b' =>
      exfalso
      simp only [List.nil_append, List.cons_append] at h
      have hy := (List.cons_prefix_cons.mp h).1
      exact hb (by rw [← hy]; exact List.mem_cons_self _ _)
  | cons x a' ih =>
    intro b u v ha hb h
    cases b with
    | nil =>
      exfalso
      simp only [List.cons_append, List.nil_append] at h
      have hx := (List.cons_prefix_cons.mp h).1
      exact ha (by rw [hx]; exact List.mem_cons_self _ _)
    | cons y b' =>
      simp only [List.cons_append] at h
      obtain ⟨hxy, h2⟩ := List.cons_prefix_cons.mp h
      have ha' : '/' ∉ a' := fun hm => ha (List.mem_cons_of_mem _ hm)
      have hb' : '/' ∉ b' := fun hm => hb (List.mem_cons_of_mem _ hm)
      obtain ⟨hab, huv⟩ := ih b' u v ha' hb' h2
      exact ⟨by rw [hxy, hab], huv⟩

theorem compPfxFree : ∀ (a b u : List Char), '/' ∉ b → ¬ ((a ++ '/' :: u) <+: b) := by
  intro a
  induction a with
  | nil =>
    intro b u hb h
    cases b with
    | nil =>
      rw [List.nil_append, List.prefix_nil] at h
      cases h
    | cons y b' =>
      rw [List.nil_append] at h
      have hy := (List.cons_prefix_cons.mp h).1
      exact hb (by rw [← hy]; exact List.mem_cons_self _ _)
  | cons x a' ih =>
    intro b u hb h
    cases b with
    | nil =>
      rw [List.cons_append, List.prefix_nil] at h
      cases h
    | cons y b' =>
      rw [List.cons_append] at h
      have h2 := (List.cons_prefix_cons.mp h).2
      exact ih b' u (fun hm => hb (List.mem_cons_of_mem _ hm)) h2

theorem renderCompsNeNil (bc : List Comp) (hbc : GoodComps bc) (hne : bc ≠ []) :
    renderComps bc ≠ [] := by
  cases bc with
  | nil => exact absurd rfl hne
  | cons b bs =>
    have hbG := hbc b (List.mem_cons_self _ _)
    cases bs with
    | nil => simpa [renderComps] using hbG.1
    | cons b2 bs2 =>
      simp only [renderComps]
      intro h
      cases b with
      | nil => exact hbG.1 rfl
      | cons c1 ct => simp at h

theorem renderCompsHeadNoSlash (bc : List Comp) (hbc : GoodComps bc) (hne : bc ≠ []) :
    ∀ t, renderComps bc ≠ '/' :: t := by
  cases bc with
  | nil => exact absurd rfl hne
  | cons b bs =>
    intro t h
    have hbG := hbc b (List.mem_cons_self _ _)
    cases b with
    | nil => exact hbG.1 rfl
    | cons c1 ct =>
      cases bs with
      | nil =>
        simp only [renderComps] at h
        injection h with h1 h2
        apply hbG.2.1
        rw [h1]
        exact List.mem_cons_self _ _
      | cons b2 bs2 =>
        simp only [renderComps, List.cons_append] at h
        injection h with h1 h2
        apply hbG.2.1
        rw [h1]
        exact List.mem_cons_self _ _

theorem renderCompsNeDot (bc : List Comp) (hbc : GoodComps bc) (hne : bc ≠ []) :
    renderComps bc ≠ ['.'] := by
  cases bc with
  | nil => exact absurd rfl hne
  | cons b bs =>
    intro h
    have hbG := hbc b (List.mem_cons_self _ _)
    cases bs with
    | nil =>
      simp only [renderComps] at h
      exact hbG.2.2 h
    | cons b2 bs2 =>
      simp only [renderComps] at h
      cases b with
      | nil => exact hbG.1 rfl
      | cons c1 ct =>
        have := congrArg List.length h
        simp [List.length_append] at this

theorem renderCompsNotDotSlash (bc : List Comp) (hbc : GoodComps bc) (hne : bc ≠ []) :
    ∀ t, renderComps bc ≠ '.' :: '/' :: t := by
  cases bc with
  | nil => exact absurd rfl hne
  | cons b bs =>
    intro t h
    have hbG := hbc b (List.mem_cons_self _ _)
    cases b with
    | nil => exact hbG.1 rfl
    | cons c1 ct =>
      cases ct with
      | nil =>
        cases bs with
        | nil =>
          simp only [renderComps] at h
          have := congrArg List.length h
          simp at this
        | cons b2 bs2 =>
          simp only [renderComps, List.cons_append, List.nil_append] at h
          injection h with h1 h2
          apply hbG.2.2
          rw [h1]
      | cons c2 ct2 =>
        cases bs with
        | nil =>
          simp only [renderComps] at h
          injection h with h1 h2
          injection h2 with h2 h3
          apply hbG.2.1
          rw [h2]
          exact List.mem_cons_of_mem _ (List.mem_cons_self _ _)
        | cons b2 bs2 =>
          simp only [renderComps, List.cons_append] at h
          injection h with h1 h2
          injection h2 with h2 h3
          apply hbG.2.1
          rw [h2]
          exact List.mem_cons_of_mem _ (List.mem_cons_self _ _)

theorem renderCompsInj : ∀ (as bs : List Comp), GoodComps as → GoodComps bs →
    renderComps as = renderComps bs → as = bs := by
  intro as
  induction as with
  | nil =>
    intro bs _ hbs h
    cases bs with
    | nil => rfl
    | cons b bs' =>
      exact absurd h.symm (renderCompsNeNil (b :: bs') hbs (by simp))
  | cons a as' ih =>
    intro bs has hbs h
    have haG := has a (List.mem_cons_self _ _)
    cases bs with
    | nil =>
      exact absurd h (renderCompsNeNil (a :: as') has (by simp))
    | cons b bs' =>
      have hbG := hbs b (List.mem_cons_self _ _)
      cases as' with
      | nil =>
        cases bs' with
        | nil =>
          simp only [renderComps] at h
          rw [h]
        | cons b2 bs2 =>
          exfalso
          simp only [renderComps] at h
          apply haG.2.1
          rw [h]
          exact List.mem_append.mpr (Or.inr (List.mem_cons_self _ _))
      | cons a2 as2 =>
        cases bs' with
        | nil =>
          exfalso
          simp only [renderComps] at h
          apply hbG.2.1
          rw [← h]
          exact List.mem_append.mpr (Or.inr (List.mem_cons_self _ _))
        | cons b2 bs2 =>
          simp only [renderComps] at h
          have hpfx : (a ++ '/' :: renderComps (a2 :: as2)) <+:
              (b ++ '/' :: renderComps (b2 :: bs2)) := ⟨[], by simp [h]⟩
          obtain ⟨hab, _⟩ := compPfxCons a b _ _ haG.2.1 hbG.2.1 hpfx
          subst hab
          have h2 : renderComps (a2 :: as2) = renderComps (b2 :: bs2) := by
            simpa using List.append_cancel_left h
          rw [ih (b2 :: bs2) (fun d hd => has d (List.mem_cons_of_mem _ hd))
            (fun d hd => hbs d (List.mem_cons_of_mem _ hd)) h2]

theorem renderCompsPfx : ∀ (as bs : List Comp), GoodComps as → GoodComps bs →
    (renderComps as ++ ['/']) <+: renderComps bs → as <+: bs := by
  intro as
  induction as with
  | nil =>
    intro bs _ _ _
    exact List.nil_prefix
  | cons a as' ih =>
    intro bs has hbs h
    have haG := has a (List.mem_cons_self _ _)
    cases bs with
    | nil =>
      exfalso
      simp only [renderComps] at h
      rw [List.prefix_nil] at h
      have := congrArg List.length h
      simp at this
    | cons b bs' =>
      have hbG := hbs b (List.mem_cons_self _ _)
      cases as' with
      | nil =>
        cases bs' with
        | nil =>
          exfalso
          simp only [renderComps] at h
          exact compPfxFree a b [] hbG.2.1 (by simpa using h)
        | cons b2 bs2 =>
          simp only [renderComps] at h
          have h2 : (a ++ '/' :: ([] : List Char)) <+: (b ++ '/' :: renderComps (b2 :: bs2)) := by
            simpa using h
          obtain ⟨hab, _⟩ := compPfxCons a b _ _ haG.2.1 hbG.2.1 h2
          rw [hab]
          exact List.cons_prefix_cons.mpr ⟨rfl, List.nil_prefix⟩
      | cons a2 as2 =>
        cases bs' with
        | nil =>
          exfalso
          simp only [renderComps] at h
          have h2 : (a ++ '/' :: (renderComps (a2 :: as2) ++ ['/'])) <+: b := by
            simpa [List.append_assoc] using h
          exact compPfxFree a b _ hbG.2.1 h2
        | cons b2 bs2 =>
          simp only [renderComps] at h
          have h2 : (a ++ '/' :: (renderComps (a2 :: as2) ++ ['/'])) <+:
              (b ++ '/' :: renderComps (b2 :: bs2)) := by
            simpa [List.append_assoc] using h
          obtain ⟨hab, hrec⟩ := compPfxCons a b _ _ haG.2.1 hbG.2.1 h2
          rw [hab]
          refine List.cons_prefix_cons.mpr ⟨rfl, ?_⟩
          exact ih (b2 :: bs2) (fun d hd => has d (List.mem_cons_of_mem _ hd))
            (fun d hd => hbs d (List.mem_cons_of_mem _ hd)) hrec

theorem renderCInj (A B : CPath) (hA : GoodComps A.comps) (hB : GoodComps B.comps)
    (h : renderC A = renderC B) : A = B := by
  obtain ⟨ar, ac⟩ := A
  obtain ⟨br, bc⟩ := B
  have hA' : GoodComps ac := hA
  have hB' : GoodComps bc := hB
  simp only [renderC] at h
  cases ar <;> cases br
  · -- both relative
    by_cases hac : ac = []
    · by_cases hbc : bc = []
      · rw [hac, hbc]
      · exfalso
        rw [if_pos hac] at h
        simp only [Bool.false_eq_true, if_false] at h
        rw [if_neg hbc] at h
        exact renderCompsNeDot bc hB' hbc h.symm
    · by_cases hbc : bc = []
      · exfalso
        rw [if_pos hbc] at h
        simp only [Bool.false_eq_true, if_false] at h
        rw [if_neg hac] at h
        exact renderCompsNeDot ac hA' hac h
      · simp only [Bool.false_eq_true, if_false] at h
        rw [if_neg hac, if_neg hbc] at h
        rw [renderCompsInj ac bc hA' hB' h]
  · -- relative = rooted : impossible
    exfalso
    simp only [Bool.false_eq_true, if_false, if_true] at h
    by_cases hac : ac = []
    · rw [if_pos hac] at h
      injection h with h1 h2
      exact absurd h1 (by decide)
    · rw [if_neg hac] at h
      exact renderCompsHeadNoSlash ac hA' hac _ h
  · exfalso
    simp only [Bool.false_eq_true, if_false, if_true] at h
    by_cases hbc : bc = []
    · rw [if_pos hbc] at h
      injection h with h1 h2
      exact absurd h1 (by decide)
    · rw [if_neg hbc] at h
      exact renderCompsHeadNoSlash bc hB' hbc _ h.symm
  · -- both rooted
    simp only [if_true] at h
    injection h with h1 h2
    rw [renderCompsInj ac bc hA' hB' h2]

theorem gatePassBridge (A B : CPath) (hA : GoodComps A.comps) (hB : GoodComps B.comps)
    (h : renderC B = renderC A ∨ (renderC A ++ ['/']) <+: renderC B) :
    B = A ∨ (A.rooted = B.rooted ∧ A.comps <+: B.comps) := by
  rcases h with h | h
  · left
    exact renderCInj B A hB hA h
  · right
    obtain ⟨ar, ac⟩ := A
    obtain ⟨br, bc⟩ := B
    have hA' : GoodComps ac := hA
    have hB' : GoodComps bc := hB
    simp only [renderC] at h
    cases ar <;> cases br
    · -- both relative
      refine ⟨rfl, ?_⟩
      simp only [Bool.false_eq_true, if_false] at h
      by_cases hac : ac = []
      · exact hac ▸ List.nil_prefix
      · rw [if_neg hac] at h
        by_cases hbc : bc = []
        · exfalso
          rw [if_pos hbc] at h
          obtain ⟨t, ht⟩ := h
          have := congrArg List.length ht
          simp at this
          have hnn := renderCompsNeNil ac hA' hac
          have hlp : (renderComps ac).length ≠ 0 := by
            intro h0
            exact hnn (List.length_eq_zero.mp h0)
          omega
        · rw [if_neg hbc] at h
          exact renderCompsPfx ac bc hA' hB' h
    · -- base relative, target rooted : gate prefix never holds
      exfalso
      simp only [Bool.false_eq_true, if_false, if_true] at h
      by_cases hac : ac = []
      · rw [if_pos hac] at h
        have h1 := (List.cons_prefix_cons.mp h).1
        exact absurd h1 (by decide)
      · rw [if_neg hac] at h
        cases hrc : renderComps ac with
        | nil => exact renderCompsNeNil ac hA' hac hrc
        | cons lh lt =>
          rw [hrc] at h
          have h1 := (List.cons_prefix_cons.mp h).1
          rw [h1] at hrc
          exact renderCompsHeadNoSlash ac hA' hac lt hrc
    · -- base rooted, target relative : gate prefix never holds
      exfalso
      simp only [Bool.false_eq_true, if_false, if_true] at h
      have h2 : ('/' :: (renderComps ac ++ ['/'])) <+:
          (if bc = [] then ['.'] else renderComps bc) := by
        simpa using h
      by_cases hbc : bc = []
      · rw [if_pos hbc] at h2
        have h1 := (List.cons_prefix_cons.mp h2).1
        exact absurd h1 (by decide)
      · rw [if_neg hbc] at h2
        obtain ⟨t, ht⟩ := h2
        rw [List.cons_append] at ht
        exact renderCompsHeadNoSlash bc hB' hbc _ ht.symm
    · -- both rooted
      refine ⟨rfl, ?_⟩
      simp only [if_true] at h
      have h2 : ('/' :: (renderComps ac ++ ['/'])) <+: ('/' :: renderComps bc) := by
        simpa using h
      have h3 := (List.cons_prefix_cons.mp h2).2
      by_cases hac : ac = []
      · exact hac ▸ List.nil_prefix
      · exact renderCompsPfx ac bc hA' hB' h3

/-! ### Filesystem operations: locality and invariants -/

theorem gatePassSanctioned (destDir target : List Char)
    (h : ensureInside destDir target = none) :
    cleanC target = cleanC destDir ∨
      ((cleanC destDir).rooted = (cleanC target).rooted ∧
        (cleanC destDir).comps <+: (cleanC target).comps) := by
  simp only [ensureInside] at h
  by_cases h1 : cleanStr target = cleanStr destDir
  · left
    rw [cleanStrEq, cleanStrEq] at h1
    exact renderCInj _ _ (cleanCGood target) (cleanCGood destDir) h1
  · rw [if_neg h1] at h
    by_cases h2 : (cleanStr destDir ++ ['/']).isPrefixOf (cleanStr target)
    · have h3 := List.isPrefixOf_iff_prefix.mp h2
      rw [cleanStrEq, cleanStrEq] at h3
      exact gatePassBridge (cleanC destDir) (cleanC target)
        (cleanCGood destDir) (cleanCGood target) (Or.inr h3)
    · rw [if_neg h2] at h
      cases h

theorem sanctionedOfPfx (R tp q : CPath)
    (hcomp : tp = R ∨ (R.rooted = tp.rooted ∧ R.comps <+: tp.comps))
    (hq : q.rooted = tp.rooted) (hqp : q.comps <+: tp.comps) :
    Sanctioned R q := by
  rcases hcomp with rfl | ⟨hr, hp⟩
  · exact ⟨hq, Or.inl hqp⟩
  · exact ⟨by rw [hq, ← hr], pfxTotal hqp hp⟩

theorem takeIsPfx {β : Type} (n : Nat) (l : List β) : l.take n <+: l :=
  ⟨l.drop n, List.take_append_drop n l⟩

theorem dropLastIsPfx {β : Type} (l : List β) : l.dropLast <+: l := by
  rw [List.dropLast_eq_take]
  exact takeIsPfx _ _

theorem prefixesOfPfx {cs c : List Comp} (h : c ∈ prefixesOf cs) : c <+: cs := by
  simp only [prefixesOf, List.mem_map] at h
  obtain ⟨j, hj, rfl⟩ := h
  exact takeIsPfx _ _

theorem changedTrans {x y z : Option FsNode} (h : z ≠ x) : z ≠ y ∨ y ≠ x := by
  by_cases hzy : z = y
  · right
    rw [← hzy]
    exact h
  · left
    exact hzy

theorem fsFindSet (fs : FS) (p : CPath) (n : FsNode) (q : CPath) :
    fsFind (fsSet fs p n) q = if q = p then some n else fsFind fs q := by
  by_cases h : q = p
  · subst h
    rw [if_pos rfl]
    simp only [fsFind, fsSet]
    rw [List.find?_cons_of_pos _ (by simp)]
    rfl
  · rw [if_neg h]
    simp only [fsFind, fsSet]
    rw [List.find?_cons_of_neg _ (by simp; exact fun he => h he.symm)]

theorem mkdirGoPreserve (r : Bool) :
    ∀ (l : List (List Comp)) (fs : FS) (q : CPath) (v : FsNode),
      fsFind fs q = some v → fsFind (mkdirGo r fs l).1 q = some v := by
  intro l
  induction l with
  | nil => intro fs q v h; exact h
  | cons c cs ih =>
    intro fs q v h
    simp only [mkdirGo]
    cases hf : fsFind fs { rooted := r, comps := c } with
    | none =>
      apply ih
      rw [fsFindSet]
      by_cases hq : q = { rooted := r, comps := c }
      · rw [hq] at h
        rw [h] at hf
        cases hf
      · rw [if_neg hq]
        exact h
    | some n =>
      cases n with
      | dir m => exact ih fs q v h
      | file m c2 t => exact h

theorem mkdirGoChanged (r : Bool) :
    ∀ (l : List (List Comp)) (fs : FS) (q : CPath),
      fsFind (mkdirGo r fs l).1 q ≠ fsFind fs q →
      q.rooted = r ∧ q.comps ∈ l := by
  intro l
  induction l with
  | nil => intro fs q h; exact absurd rfl h
  | cons c cs ih =>
    intro fs q h
    simp only [mkdirGo] at h
    cases hf : fsFind fs { rooted := r, comps := c } with
    | none =>
      rw [hf] at h
      by_cases hq : q = { rooted := r, comps := c }
      · subst hq
        exact ⟨rfl, List.mem_cons_self _ _⟩
      · have h2 : fsFind (fsSet fs { rooted := r, comps := c } (FsNode.dir 493)) q =
            fsFind fs q := by
          rw [fsFindSet, if_neg hq]
        have h3 : fsFind (mkdirGo r (fsSet fs { rooted := r, comps := c }
            (FsNode.dir 493)) cs).1 q ≠
            fsFind (fsSet fs { rooted := r, comps := c } (FsNode.dir 493)) q := by
          rw [h2]
          exact h
        obtain ⟨hr2, hm⟩ := ih _ q h3
        exact ⟨hr2, List.mem_cons_of_mem _ hm⟩
    | some n =>
      rw [hf] at h
      cases n with
      | dir m =>
        obtain ⟨hr2, hm⟩ := ih fs q h
        exact ⟨hr2, List.mem_cons_of_mem _ hm⟩
      | file m c2 t => exact absurd rfl h

theorem mkdirAllChanged (fs : FS) (t : CPath) (q : CPath)
    (h : fsFind (mkdirAll fs t).1 q ≠ fsFind fs q) :
    q.rooted = t.rooted ∧ q.comps <+: t.comps := by
  obtain ⟨hr, hm⟩ := mkdirGoChanged t.rooted (prefixesOf t.comps) fs q h
  exact ⟨hr, prefixesOfPfx hm⟩

theorem mkdirAllPreserve (fs : FS) (t : CPath) (q : CPath) (v : FsNode)
    (h : fsFind fs q = some v) : fsFind (mkdirAll fs t).1 q = some v :=
  mkdirGoPreserve t.rooted (prefixesOf t.comps) fs q v h

theorem createFileChanged (fs : FS) (t : CPath) (mode : Nat) (content : List Nat) (q : CPath)
    (h : fsFind (createFile fs t mode content).1 q ≠ fsFind fs q) : q = t := by
  simp only [createFile] at h
  cases hf : fsFind fs t with
  | none =>
    rw [hf] at h
    by_cases hq : q = t
    · exact hq
    · rw [fsFindSet, if_neg hq] at h
      exact absurd rfl h
  | some n =>
    rw [hf] at h
    cases n with
    | dir m => exact absurd rfl h
    | file m c2 t2 =>
      by_cases hq : q = t
      · exact hq
      · rw [fsFindSet, if_neg hq] at h
        exact absurd rfl h

theorem createFilePreserve (fs : FS) (t : CPath) (mode : Nat) (content : List Nat)
    (q : CPath) (v : FsNode) (hne : q ≠ t) (h : fsFind fs q = some v) :
    fsFind (createFile fs t mode content).1 q = some v := by
  simp only [createFile]
  cases hf : fsFind fs t with
  | none =>
    rw [fsFindSet, if_neg hne]
    exact h
  | some n =>
    cases n with
    | dir m => exact h
    | file m c2 t2 =>
      rw [fsFindSet, if_neg hne]
      exact h

theorem chtimesChanged (fs : FS) (t : CPath) (mtime : Int) (q : CPath)
    (h : fsFind (chtimes fs t mtime) q ≠ fsFind fs q) : q = t := by
  simp only [chtimes] at h
  cases hf : fsFind fs t with
  | none =>
    rw [hf] at h
    exact absurd rfl h
  | some n =>
    rw [hf] at h
    cases n with
    | dir m => exact absurd rfl h
    | file m c2 t2 =>
      by_cases hq : q = t
      · exact hq
      · rw [fsFindSet, if_neg hq] at h
        exact absurd rfl h

theorem chtimesPreserve (fs : FS) (t : CPath) (mtime : Int) (q : CPath) (v : FsNode)
    (hne : q ≠ t) (h : fsFind fs q = some v) : fsFind (chtimes fs t mtime) q = some v := by
  simp only [chtimes]
  cases hf : fsFind fs t with
  | none => exact h
  | some n =>
    cases n with
    | dir m => exact h
    | file m c2 t2 =>
      rw [fsFindSet, if_neg hne]
      exact h

theorem restoreOneChanged (destDir : List Char) (fs : FS) (e : UEntry)
    (f : Option (List Char)) (q : CPath)
    (h : fsFind (restoreOne destDir fs e f).1 q ≠ fsFind fs q) :
    Sanctioned (cleanC destDir) q := by
  cases hg : ensureInside destDir (joinStr destDir e.name) with
  | some msg =>
    simp only [restoreOne, hg] at h
    exact absurd rfl h
  | none =>
    have hcomp := gatePassSanctioned destDir (joinStr destDir e.name) hg
    cases hmk : mkdirAll fs (parentC (cleanC (joinStr destDir e.name))) with
    | mk fs1 e1 =>
      have hmkCh : ∀ q2 : CPath, fsFind fs1 q2 ≠ fsFind fs q2 →
          Sanctioned (cleanC destDir) q2 := by
        intro q2 hq2
        have hq3 : fsFind (mkdirAll fs (parentC (cleanC (joinStr destDir e.name)))).1 q2 ≠
            fsFind fs q2 := by
          rw [hmk]
          exact hq2
        obtain ⟨hr, hp⟩ := mkdirAllChanged _ _ _ hq3
        exact sanctionedOfPfx _ _ _ hcomp hr (hp.trans (dropLastIsPfx _))
      have htp : Sanctioned (cleanC destDir) (cleanC (joinStr destDir e.name)) :=
        sanctionedOfPfx _ _ _ hcomp rfl (List.prefix_refl _)
      cases e1 with
      | some msg =>
        simp only [restoreOne, hg, hmk] at h
        exact hmkCh q h
      | none =>
        cases f with
        | some msg =>
          simp only [restoreOne, hg, hmk] at h
          exact hmkCh q h
        | none =>
          cases hcf : createFile fs1 (cleanC (joinStr destDir e.name)) e.mode e.content with
          | mk fs2 e2 =>
            have hcfCh : ∀ q2 : CPath, fsFind fs2 q2 ≠ fsFind fs1 q2 →
                Sanctioned (cleanC destDir) q2 := by
              intro q2 hq2
              have hq3 : fsFind (createFile fs1 (cleanC (joinStr destDir e.name))
                  e.mode e.content).1 q2 ≠ fsFind fs1 q2 := by
                rw [hcf]
                exact hq2
              have hq4 := createFileChanged _ _ _ _ _ hq3
              rw [hq4]
              exact htp
            cases e2 with
            | some msg =>
              simp only [restoreOne, hg, hmk, hcf] at h
              rcases changedTrans (y := fsFind fs1 q) h with hA | hB
              · exact hcfCh q hA
              · exact hmkCh q hB
            | none =>
              simp only [restoreOne, hg, hmk, hcf] at h
              rcases changedTrans (y := fsFind fs2 q) h with hA | hB
              · have hq4 := chtimesChanged _ _ _ _ hA
                rw [hq4]
                exact htp
              · rcases changedTrans (y := fsFind fs1 q) hB with hC | hD
                · exact hcfCh q hC
                · exact hmkCh q hD

theorem prePassChanged (destDir : List Char) :
    ∀ (entries : List UEntry) (fs : FS) (q : CPath),
      fsFind (prePass destDir fs entries).1 q ≠ fsFind fs q →
      Sanctioned (cleanC destDir) q := by
  intro entries
  induction entries with
  | nil => intro fs q h; exact absurd rfl h
  | cons e es ih =>
    intro fs q h
    cases hd : e.isDir with
    | false =>
      simp only [prePass, hd, Bool.false_eq_true, if_false] at h
      exact ih fs q h
    | true =>
      cases hg : ensureInside destDir (joinStr destDir e.name) with
      | some msg =>
        simp only [prePass, hd, if_true, hg] at h
        exact absurd rfl h
      | none =>
        have hcomp := gatePassSanctioned destDir (joinStr destDir e.name) hg
        cases hmk : mkdirAll fs (cleanC (joinStr destDir e.name)) with
        | mk fs1 e1 =>
          have hstage : ∀ q2 : CPath, fsFind fs1 q2 ≠ fsFind fs q2 →
              Sanctioned (cleanC destDir) q2 := by
            intro q2 hq2
            have hq3 : fsFind (mkdirAll fs (cleanC (joinStr destDir e.name))).1 q2 ≠
                fsFind fs q2 := by
              rw [hmk]
              exact hq2
            obtain ⟨hr, hp⟩ := mkdirAllChanged _ _ _ hq3
            exact sanctionedOfPfx _ _ _ hcomp hr hp
          cases e1 with
          | some msg =>
            simp only [prePass, hd, if_true, hg, hmk] at h
            exact hstage q h
          | none =>
            simp only [prePass, hd, if_true, hg, hmk] at h
            rcases changedTrans (y := fsFind fs1 q) h with hA | hB
            · exact ih fs1 q hA
            · exact hstage q hB

theorem runWorkersTrChanged (destDir : List Char) (entries : List UEntry)
    (fault : Nat → Option (List Char)) :
    ∀ (sched : List Nat) (fs : FS) (slot : Option (List Char))
      (fails : List (Nat × List Char)) (q : CPath),
      fsFind (runWorkersTr destDir entries fault fs slot fails sched).1 q ≠ fsFind fs q →
      Sanctioned (cleanC destDir) q := by
  intro sched
  induction sched with
  | nil => intro fs slot fails q h; exact absurd rfl h
  | cons i is ih =>
    intro fs slot fails q h
    cases hge : entries.get? i with
    | none =>
      simp only [runWorkersTr, hge] at h
      exact ih fs slot fails q h
    | some e =>
      cases hd : e.isDir with
      | true =>
        simp only [runWorkersTr, hge, hd, if_true] at h
        exact ih fs slot fails q h
      | false =>
        cases hro : restoreOne destDir fs e (fault i) with
        | mk fs1 r1 =>
          have hone : ∀ q2 : CPath, fsFind fs1 q2 ≠ fsFind fs q2 →
              Sanctioned (cleanC destDir) q2 := by
            intro q2 hq2
            apply restoreOneChanged destDir fs e (fault i) q2
            rw [hro]
            exact hq2
          cases r1 with
          | none =>
            simp only [runWorkersTr, hge, hd, Bool.false_eq_true, if_false, hro] at h
            rcases changedTrans (y := fsFind fs1 q) h with hA | hB
            · exact ih fs1 slot fails q hA
            · exact hone q hB
          | some msg =>
            simp only [runWorkersTr, hge, hd, Bool.false_eq_true, if_false, hro] at h
            rcases changedTrans (y := fsFind fs1 q) h with hA | hB
            · exact ih fs1 _ _ q hA
            · exact hone q hB

theorem runWorkersFailsMono (destDir : List Char) (entries : List UEntry)
    (fault : Nat → Option (List Char)) :
    ∀ (sched : List Nat) (fs : FS) (slot : Option (List Char))
      (fails : List (Nat × List Char)) (x : Nat × List Char), x ∈ fails →
      x ∈ (runWorkersTr destDir entries fault fs slot fails sched).2.2 := by
  intro sched
  induction sched with
  | nil => intro fs slot fails x hx; exact hx
  | cons i is ih =>
    intro fs slot fails x hx
    cases hge : entries.get? i with
    | none =>
      simp only [runWorkersTr, hge]
      exact ih fs slot fails x hx
    | some e =>
      cases hd : e.isDir with
      | true =>
        simp only [runWorkersTr, hge, hd, if_true]
        exact ih fs slot fails x hx
      | false =>
        cases hro : restoreOne destDir fs e (fault i) with
        | mk fs1 r1 =>
          cases r1 with
          | none =>
            simp only [runWorkersTr, hge, hd, Bool.false_eq_true, if_false, hro]
            exact ih fs1 slot fails x hx
          | some msg =>
            simp only [runWorkersTr, hge, hd, Bool.false_eq_true, if_false, hro]
            exact ih fs1 _ _ x (List.mem_append.mpr (Or.inl hx))

theorem runWorkersSlotSome (destDir : List Char) (entries : List UEntry)
    (fault : Nat → Option (List Char)) :
    ∀ (sched : List Nat) (fs : FS) (slot : Option (List Char))
      (fails : List (Nat × List Char)), slot.isSome →
      (runWorkersTr destDir entries fault fs slot fails sched).2.1.isSome := by
  intro sched
  induction sched with
  | nil => intro fs slot fails hs; exact hs
  | cons i is ih =>
    intro fs slot fails hs
    cases hge : entries.get? i with
    | none =>
      simp only [runWorkersTr, hge]
      exact ih fs slot fails hs
    | some e =>
      cases hd : e.isDir with
      | true =>
        simp only [runWorkersTr, hge, hd, if_true]
        exact ih fs slot fails hs
      | false =>
        cases hro : restoreOne destDir fs e (fault i) with
        | mk fs1 r1 =>
          cases r1 with
          | none =>
            simp only [runWorkersTr, hge, hd, Bool.false_eq_true, if_false, hro]
            exact ih fs1 slot fails hs
          | some msg =>
            simp only [runWorkersTr, hge, hd, Bool.false_eq_true, if_false, hro]
            apply ih
            obtain ⟨v, hv⟩ := Option.isSome_iff_exists.mp hs
            rw [hv]
            rfl

theorem runWorkersGateFail (destDir : List Char) (entries : List UEntry)
    (fault : Nat → Option (List Char)) :
    ∀ (sched : List Nat) (fs : FS) (slot : Option (List Char))
      (fails : List (Nat × List Char)) (i : Nat) (e : UEntry) (msg : List Char),
      i ∈ sched → entries.get? i = some e → e.isDir = false →
      ensureInside destDir (joinStr destDir e.name) = some msg →
      (i, msg) ∈ (runWorkersTr destDir entries fault fs slot fails sched).2.2 ∧
      (runWorkersTr destDir entries fault fs slot fails sched).2.1.isSome := by
  intro sched
  induction sched with
  | nil => intro fs slot fails i e msg hi; cases hi
  | cons j is ih =>
    intro fs slot fails i e msg hi hge hd hg
    rcases List.mem_cons.mp hi with rfl | hmem
    · -- this worker runs the gate-failing entry right now
      have hro : restoreOne destDir fs e (fault i) = (fs, some msg) := by
        simp only [restoreOne, hg]
      simp only [runWorkersTr, hge, hd, Bool.false_eq_true, if_false, hro]
      constructor
      · exact runWorkersFailsMono destDir entries fault is _ _ _ _
          (List.mem_append.mpr (Or.inr (List.mem_singleton.mpr rfl)))
      · apply runWorkersSlotSome
        cases slot <;> rfl
    · cases hgej : entries.get? j with
      | none =>
        simp only [runWorkersTr, hgej]
        exact ih fs slot fails i e msg hmem hge hd hg
      | some ej =>
        cases hdj : ej.isDir with
        | true =>
          simp only [runWorkersTr, hgej, hdj, if_true]
          exact ih fs slot fails i e msg hmem hge hd hg
        | false =>
          cases hro : restoreOne destDir fs ej (fault j) with
          | mk fs1 r1 =>
            cases r1 with
            | none =>
              simp only [runWorkersTr, hgej, hdj, Bool.false_eq_true, if_false, hro]
              exact ih fs1 slot fails i e msg hmem hge hd hg
            | some msgj =>
              simp only [runWorkersTr, hgej, hdj, Bool.false_eq_true, if_false, hro]
              exact ih fs1 _ _ i e msg hmem hge hd hg

/-! ### Zip-slip safety: claim C2 -/

/-- Counterexample to C2 as stated: the archive entry `a/../b` contains a
parent-directory traversal segment, yet unpacking it succeeds with no
path-escape error — the joined path cleans to `out/b`, inside the root.
The gate tests where the cleaned path lands, not whether `..` occurs in
the name. -/
theorem c2_counterexample :
    (unzipParallelAll outDir [eDotDot] noFault [0] []).2 = none := by decide

/-- Claim C2 (amended): (1) unpacking mutates the filesystem only at paths
comparable to the cleaned destination root — the root itself, an ancestor
of it (touched only while establishing the root), or a path lexically
inside it — for every archive, fault pattern, worker schedule, and
starting filesystem; (2) a file entry whose joined path fails the safety
gate (such as `../evil` under a normal root) is recorded as a path-escape
failure and makes the operation report an error; (3) the gate runs before
any mutation for an entry: a gate-failing entry leaves the filesystem
exactly as it found it. -/
theorem c2_no_escape (destDir : List Char) (entries : List UEntry)
    (fault : Nat → Option (List Char)) (sched : List Nat) (fs0 : FS) :
    (∀ q : CPath,
      fsFind (unzipParallelAll destDir entries fault sched fs0).1 q ≠ fsFind fs0 q →
      Sanctioned (cleanC destDir) q) ∧
    (∀ i ∈ sched, ∀ e msg, entries.get? i = some e → e.isDir = false →
      ensureInside destDir (joinStr destDir e.name) = some msg →
      (mkdirAll fs0 (cleanC destDir)).2 = none →
      (prePass destDir (mkdirAll fs0 (cleanC destDir)).1 entries).2 = none →
      (i, msg) ∈ (unzipParallelAllTr destDir entries fault sched fs0).2.2 ∧
      (unzipParallelAllTr destDir entries fault sched fs0).2.1.isSome) ∧
    (∀ (fs : FS) (f : Option (List Char)) (e : UEntry) (msg : List Char),
      ensureInside destDir (joinStr destDir e.name) = some msg →
      restoreOne destDir fs e f = (fs, some msg)) := by
  refine ⟨?_, ?_, ?_⟩
  · intro q h
    simp only [unzipParallelAll] at h
    cases hmk : mkdirAll fs0 (cleanC destDir) with
    | mk fs1 e1 =>
      have hmkCh : ∀ q2 : CPath, fsFind fs1 q2 ≠ fsFind fs0 q2 →
          Sanctioned (cleanC destDir) q2 := by
        intro q2 hq2
        have hq3 : fsFind (mkdirAll fs0 (cleanC destDir)).1 q2 ≠ fsFind fs0 q2 := by
          rw [hmk]
          exact hq2
        obtain ⟨hr, hp⟩ := mkdirAllChanged _ _ _ hq3
        exact ⟨hr, Or.inl hp⟩
      cases e1 with
      | some msg =>
        simp only [unzipParallelAllTr, hmk] at h
        exact hmkCh q h
      | none =>
        cases hpp : prePass destDir fs1 entries with
        | mk fs2 e2 =>
          have hppCh : ∀ q2 : CPath, fsFind fs2 q2 ≠ fsFind fs1 q2 →
              Sanctioned (cleanC destDir) q2 := by
            intro q2 hq2
            apply prePassChanged destDir entries fs1 q2
            rw [hpp]
            exact hq2
          cases e2 with
          | some msg =>
            simp only [unzipParallelAllTr, hmk, hpp] at h
            rcases changedTrans (y := fsFind fs1 q) h with hA | hB
            · exact hppCh q hA
            · exact hmkCh q hB
          | none =>
            simp only [unzipParallelAllTr, hmk, hpp] at h
            rcases changedTrans (y := fsFind fs2 q) h with hA | hB
            · exact runWorkersTrChanged destDir entries fault sched fs2 none [] q hA
            · rcases changedTrans (y := fsFind fs1 q) hB with hC | hD
              · exact hppCh q hC
              · exact hmkCh q hD
  · intro i hi e msg hge hd hg h0 h1
    cases hmk : mkdirAll fs0 (cleanC destDir) with
    | mk fs1 e1 =>
      rw [hmk] at h0
      simp only at h0
      subst h0
      cases hpp : prePass destDir fs1 entries with
      | mk fs2 e2 =>
        rw [hmk] at h1
        simp only at h1
        rw [hpp] at h1
        simp only at h1
        subst h1
        simp only [unzipParallelAllTr, hmk, hpp]
        exact runWorkersGateFail destDir entries fault sched fs2 none [] i e msg hi hge hd hg
  · intro fs f e msg hg
    simp only [restoreOne, hg]

/-- Witness for C2: under root `out`, the entry `../evil` joins and cleans to
`evil`, which the gate rejects; the run records the failure for worker 0 and
reports an error. -/
theorem c2_no_escape_witness :
    (0, slipMsg ++ ['e','v','i','l']) ∈
      (unzipParallelAllTr outDir [eEvil, eGood] noFault [0,1] []).2.2 ∧
    (unzipParallelAllTr outDir [eEvil, eGood] noFault [0,1] []).2.1.isSome :=
  (c2_no_escape outDir [eEvil, eGood] noFault [0,1] []).2.1 0 (by decide)
    eEvil (slipMsg ++ ['e','v','i','l']) (by decide) (by decide) (by decide)
    (by decide) (by decide)

/-! ### Directory permissions: claim C10 -/

theorem c10InvExt (entries : List UEntry) (fs1 fs2 : FS)
    (h : ∀ q, fsFind fs1 q = fsFind fs2 q) (h2 : C10Inv entries fs2) :
    C10Inv entries fs1 := by
  constructor
  · intro q m hq
    rw [h q] at hq
    exact h2.1 q m hq
  · intro q m c t hq
    rw [h q] at hq
    exact h2.2 q m c t hq

theorem fsSetFileC10 (entries : List UEntry) (fs : FS) (tp : CPath)
    (m : Nat) (c : List Nat) (t : Option Int)
    (hm : m ∈ entries.map UEntry.mode)
    (ht : t ∈ entries.map (fun e => some e.modified))
    (h : C10Inv entries fs) :
    C10Inv entries (fsSet fs tp (FsNode.file m c t)) := by
  constructor
  · intro q m2 hq
    rw [fsFindSet] at hq
    by_cases hqc : q = tp
    · rw [if_pos hqc] at hq
      simp at hq
    · rw [if_neg hqc] at hq
      exact h.1 q m2 hq
  · intro q m2 c2 t2 hq
    rw [fsFindSet] at hq
    by_cases hqc : q = tp
    · rw [if_pos hqc] at hq
      simp only [Option.some.injEq, FsNode.file.injEq] at hq
      obtain ⟨hm2, _, ht2⟩ := hq
      exact ⟨hm2 ▸ hm, ht2 ▸ ht⟩
    · rw [if_neg hqc] at hq
      exact h.2 q m2 c2 t2 hq

theorem mkdirGoC10 (entries : List UEntry) (r : Bool) :
    ∀ (l : List (List Comp)) (fs : FS), C10Inv entries fs →
      C10Inv entries (mkdirGo r fs l).1 := by
  intro l
  induction l with
  | nil => intro fs h; exact h
  | cons c cs ih =>
    intro fs h
    simp only [mkdirGo]
    cases hf : fsFind fs { rooted := r, comps := c } with
    | none =>
      apply ih
      constructor
      · intro q m hq
        rw [fsFindSet] at hq
        by_cases hqc : q = { rooted := r, comps := c }
        · rw [if_pos hqc] at hq
          simp only [Option.some.injEq, FsNode.dir.injEq] at hq
          exact hq.symm
        · rw [if_neg hqc] at hq
          exact h.1 q m hq
      · intro q m c2 t hq
        rw [fsFindSet] at hq
        by_cases hqc : q = { rooted := r, comps := c }
        · rw [if_pos hqc] at hq
          simp at hq
        · rw [if_neg hqc] at hq
          exact h.2 q m c2 t hq
    | some n =>
      cases n with
      | dir m => exact ih fs h
      | file m c2 t => exact h

theorem mkdirAllC10 (entries : List UEntry) (fs : FS) (t : CPath)
    (h : C10Inv entries fs) : C10Inv entries (mkdirAll fs t).1 :=
  mkdirGoC10 entries t.rooted (prefixesOf t.comps) fs h

theorem restoreOneC10 (entries : List UEntry) (destDir : List Char) (fs : FS)
    (e : UEntry) (f : Option (List Char)) (he : e ∈ entries)
    (h : C10Inv entries fs) : C10Inv entries (restoreOne destDir fs e f).1 := by
  cases hg : ensureInside destDir (joinStr destDir e.name) with
  | some msg =>
    simp only [restoreOne, hg]
    exact h
  | none =>
    cases hmk : mkdirAll fs (parentC (cleanC (joinStr destDir e.name))) with
    | mk fs1 r1 =>
      have h1 : C10Inv entries fs1 := by
        have h2 := mkdirAllC10 entries fs (parentC (cleanC (joinStr destDir e.name))) h
        rw [hmk] at h2
        exact h2
      cases r1 with
      | some msg =>
        simp only [restoreOne, hg, hmk]
        exact h1
      | none =>
        cases f with
        | some msg =>
          simp only [restoreOne, hg, hmk]
          exact h1
        | none =>
          have hmem : e.mode ∈ entries.map UEntry.mode :=
            List.mem_map_of_mem _ he
          have hmod : some e.modified ∈ entries.map (fun e2 => some e2.modified) :=
            List.mem_map_of_mem _ he
          cases hf : fsFind fs1 (cleanC (joinStr destDir e.name)) with
          | none =>
            simp only [restoreOne, hg, hmk, createFile, hf]
            have hfind : fsFind (fsSet fs1 (cleanC (joinStr destDir e.name))
                (FsNode.file e.mode e.content none)) (cleanC (joinStr destDir e.name)) =
                some (FsNode.file e.mode e.content none) := by
              rw [fsFindSet, if_pos rfl]
            simp only [chtimes, hfind]
            apply c10InvExt entries _ (fsSet fs1 (cleanC (joinStr destDir e.name))
                (FsNode.file e.mode e.content (some e.modified)))
            · intro q
              rw [fsFindSet, fsFindSet, fsFindSet]
              by_cases hqc : q = cleanC (joinStr destDir e.name)
              · simp [hqc]
              · simp [hqc]
            · exact fsSetFileC10 entries fs1 _ e.mode e.content (some e.modified)
                hmem hmod h1
          | some n =>
            cases n with
            | dir m0 =>
              simp only [restoreOne, hg, hmk, createFile, hf]
              exact h1
            | file m0 c0 t0 =>
              have hm0 := h1.2 _ m0 c0 t0 hf
              simp only [restoreOne, hg, hmk, createFile, hf]
              have hfind : fsFind (fsSet fs1 (cleanC (joinStr destDir e.name))
                  (FsNode.file m0 e.content t0)) (cleanC (joinStr destDir e.name)) =
                  some (FsNode.file m0 e.content t0) := by
                rw [fsFindSet, if_pos rfl]
              simp only [chtimes, hfind]
              apply c10InvExt entries _ (fsSet fs1 (cleanC (joinStr destDir e.name))
                  (FsNode.file m0 e.content (some e.modified)))
              · intro q
                rw [fsFindSet, fsFindSet, fsFindSet]
                by_cases hqc : q = cleanC (joinStr destDir e.name)
                · simp [hqc]
                · simp [hqc]
              · exact fsSetFileC10 entries fs1 _ m0 e.content (some e.modified)
                  hm0.1 hmod h1

theorem prePassC10 (entries : List UEntry) (destDir : List Char) :
    ∀ (es : List UEntry) (fs : FS), C10Inv entries fs →
      C10Inv entries (prePass destDir fs es).1 := by
  intro es
  induction es with
  | nil => intro fs h; exact h
  | cons e es2 ih =>
    intro fs h
    cases hd : e.isDir with
    | false =>
      simp only [prePass, hd, Bool.false_eq_true, if_false]
      exact ih fs h
    | true =>
      cases hg : ensureInside destDir (joinStr destDir e.name) with
      | some msg =>
        simp only [prePass, hd, if_true, hg]
        exact h
      | none =>
        cases hmk : mkdirAll fs (cleanC (joinStr destDir e.name)) with
        | mk fs1 r1 =>
          have h1 : C10Inv entries fs1 := by
            have h2 := mkdirAllC10 entries fs (cleanC (joinStr destDir e.name)) h
            rw [hmk] at h2
            exact h2
          cases r1 with
          | some msg =>
            simp only [prePass, hd, if_true, hg, hmk]
            exact h1
          | none =>
            simp only [prePass, hd, if_true, hg, hmk]
            exact ih fs1 h1

theorem runWorkersC10 (entries : List UEntry) (destDir : List Char)
    (fault : Nat → Option (List Char)) :
    ∀ (sched : List Nat) (fs : FS) (slot : Option (List Char))
      (fails : List (Nat × List Char)), C10Inv entries fs →
      C10Inv entries (runWorkersTr destDir entries fault fs slot fails sched).1 := by
  intro sched
  induction sched with
  | nil => intro fs slot fails h; exact h
  | cons i is ih =>
    intro fs slot fails h
    cases hge : entries.get? i with
    | none =>
      simp only [runWorkersTr, hge]
      exact ih fs slot fails h
    | some e =>
      have he : e ∈ entries := List.get?_mem hge
      cases hd : e.isDir with
      | true =>
        simp only [runWorkersTr, hge, hd, if_true]
        exact ih fs slot fails h
      | false =>
        cases hro : restoreOne destDir fs e (fault i) with
        | mk fs1 r1 =>
          have h1 : C10Inv entries fs1 := by
            have h2 := restoreOneC10 entries destDir fs e (fault i) he h
            rw [hro] at h2
            exact h2
          cases r1 with
          | none =>
            simp only [runWorkersTr, hge, hd, Bool.false_eq_true, if_false, hro]
            exact ih fs1 slot fails h1
          | some msg =>
            simp only [runWorkersTr, hge, hd, Bool.false_eq_true, if_false, hro]
            exact ih fs1 _ _ h1

/-- Claim C10: during unpacking, every directory — archive directory
entries and implicitly created parents alike — is created with the fixed
permission bits `0o755` (decimal 493), and the archive's recorded
permission bits and modification times are applied only to file entries:
starting from any filesystem satisfying the invariant (in particular the
empty one), in the resulting filesystem every directory carries mode 493
and every file's permission bits and modification time come from archive
entries, for any fault pattern and worker schedule. -/
theorem c10_dir_permissions (destDir : List Char) (entries : List UEntry)
    (fault : Nat → Option (List Char)) (sched : List Nat) (fs0 : FS)
    (h : C10Inv entries fs0) :
    C10Inv entries (unzipParallelAll destDir entries fault sched fs0).1 := by
  simp only [unzipParallelAll]
  cases hmk : mkdirAll fs0 (cleanC destDir) with
  | mk fs1 r1 =>
    have h1 : C10Inv entries fs1 := by
      have h2 := mkdirAllC10 entries fs0 (cleanC destDir) h
      rw [hmk] at h2
      exact h2
    cases r1 with
    | some msg =>
      simp only [unzipParallelAllTr, hmk]
      exact h1
    | none =>
      cases hpp : prePass destDir fs1 entries with
      | mk fs2 r2 =>
        have h2 : C10Inv entries fs2 := by
          have h3 := prePassC10 entries destDir entries fs1 h1
          rw [hpp] at h3
          exact h3
        cases r2 with
        | some msg =>
          simp only [unzipParallelAllTr, hmk, hpp]
          exact h2
        | none =>
          simp only [unzipParallelAllTr, hmk, hpp]
          exact runWorkersC10 entries destDir fault sched fs2 none [] h2

/-- Witness for C10: unpacking the archive `[d/, d/f]` into an empty
filesystem under root `out` yields a filesystem whose directories all
carry mode 493 and whose files take their bits and stamps from the
entries. -/
theorem c10_dir_permissions_witness :
    C10Inv [eDir, eGood] ([] : FS) ∧
    C10Inv [eDir, eGood] (unzipParallelAll outDir [eDir, eGood] noFault [1] []).1 := by
  have h0 : C10Inv [eDir, eGood] ([] : FS) := by
    constructor
    · intro q m hq
      simp [fsFind] at hq
    · intro q m c t hq
      simp [fsFind] at hq
  exact ⟨h0, c10_dir_permissions outDir [eDir, eGood] noFault [1] [] h0⟩

/-! ### First-error reporting and full restoration: claim C6 -/

theorem mkdirGoFileBack (r : Bool) :
    ∀ (l : List (List Comp)) (fs : FS) (q : CPath) (m : Nat) (c : List Nat)
      (t : Option Int),
      fsFind (mkdirGo r fs l).1 q = some (FsNode.file m c t) →
      fsFind fs q = some (FsNode.file m c t) := by
  intro l
  induction l with
  | nil => intro fs q m c t h; exact h
  | cons c0 cs ih =>
    intro fs q m c t h
    simp only [mkdirGo] at h
    cases hf : fsFind fs { rooted := r, comps := c0 } with
    | none =>
      rw [hf] at h
      have h2 := ih _ q m c t h
      rw [fsFindSet] at h2
      by_cases hqc : q = { rooted := r, comps := c0 }
      · rw [if_pos hqc] at h2
        simp at h2
      · rw [if_neg hqc] at h2
        exact h2
    | some n =>
      rw [hf] at h
      cases n with
      | dir m2 => exact ih fs q m c t h
      | file m2 c2 t2 => exact h

theorem mkdirAllFileBack (fs : FS) (tp q : CPath) (m : Nat) (c : List Nat)
    (t : Option Int)
    (h : fsFind (mkdirAll fs tp).1 q = some (FsNode.file m c t)) :
    fsFind fs q = some (FsNode.file m c t) :=
  mkdirGoFileBack tp.rooted (prefixesOf tp.comps) fs q m c t h

theorem prePassFileBack (destDir : List Char) :
    ∀ (es : List UEntry) (fs : FS) (q : CPath) (m : Nat) (c : List Nat)
      (t : Option Int),
      fsFind (prePass destDir fs es).1 q = some (FsNode.file m c t) →
      fsFind fs q = some (FsNode.file m c t) := by
  intro es
  induction es with
  | nil => intro fs q m c t h; exact h
  | cons e es2 ih =>
    intro fs q m c t h
    cases hd : e.isDir with
    | false =>
      simp only [prePass, hd, Bool.false_eq_true, if_false] at h
      exact ih fs q m c t h
    | true =>
      cases hg : ensureInside destDir (joinStr destDir e.name) with
      | some msg =>
        simp only [prePass, hd, if_true, hg] at h
        exact h
      | none =>
        cases hmk : mkdirAll fs (cleanC (joinStr destDir e.name)) with
        | mk fs1 r1 =>
          cases r1 with
          | some msg =>
            simp only [prePass, hd, if_true, hg, hmk] at h
            exact mkdirAllFileBack fs _ q m c t (by rw [hmk]; exact h)
          | none =>
            simp only [prePass, hd, if_true, hg, hmk] at h
            exact mkdirAllFileBack fs _ q m c t (by rw [hmk]; exact ih fs1 q m c t h)

theorem restoreOnePreserve (destDir : List Char) (fs : FS) (e : UEntry)
    (f : Option (List Char)) (q : CPath) (v : FsNode)
    (hne : q ≠ cleanC (joinStr destDir e.name)) (h : fsFind fs q = some v) :
    fsFind (restoreOne destDir fs e f).1 q = some v := by
  cases hg : ensureInside destDir (joinStr destDir e.name) with
  | some msg =>
    simp only [restoreOne, hg]
    exact h
  | none =>
    cases hmk : mkdirAll fs (parentC (cleanC (joinStr destDir e.name))) with
    | mk fs1 r1 =>
      have h1 : fsFind fs1 q = some v := by
        have h2 := mkdirAllPreserve fs (parentC (cleanC (joinStr destDir e.name))) q v h
        rw [hmk] at h2
        exact h2
      cases r1 with
      | some msg =>
        simp only [restoreOne, hg, hmk]
        exact h1
      | none =>
        cases f with
        | some msg =>
          simp only [restoreOne, hg, hmk]
          exact h1
        | none =>
          cases hcf : createFile fs1 (cleanC (joinStr destDir e.name)) e.mode e.content with
          | mk fs2 r2 =>
            have h2 : fsFind fs2 q = some v := by
              have h3 := createFilePreserve fs1 (cleanC (joinStr destDir e.name))
                e.mode e.content q v hne h1
              rw [hcf] at h3
              exact h3
            cases r2 with
            | some msg =>
              simp only [restoreOne, hg, hmk, hcf]
              exact h2
            | none =>
              simp only [restoreOne, hg, hmk, hcf]
              exact chtimesPreserve fs2 (cleanC (joinStr destDir e.name))
                e.modified q v hne h2

theorem runWorkersPreserve (destDir : List Char) (entries : List UEntry)
    (fault : Nat → Option (List Char)) :
    ∀ (sched : List Nat) (fs : FS) (slot : Option (List Char))
      (fails : List (Nat × List Char)) (q : CPath) (v : FsNode),
      (∀ j ∈ sched, ∀ ej, entries.get? j = some ej → ej.isDir = false →
        q ≠ cleanC (joinStr destDir ej.name)) →
      fsFind fs q = some v →
      fsFind (runWorkersTr destDir entries fault fs slot fails sched).1 q = some v := by
  intro sched
  induction sched with
  | nil => intro fs slot fails q v hcond h; exact h
  | cons i is ih =>
    intro fs slot fails q v hcond h
    have hcond2 : ∀ j ∈ is, ∀ ej, entries.get? j = some ej → ej.isDir = false →
        q ≠ cleanC (joinStr destDir ej.name) := by
      intro j hj
      exact hcond j (List.mem_cons_of_mem _ hj)
    cases hge : entries.get? i with
    | none =>
      simp only [runWorkersTr, hge]
      exact ih fs slot fails q v hcond2 h
    | some e =>
      cases hd : e.isDir with
      | true =>
        simp only [runWorkersTr, hge, hd, if_true]
        exact ih fs slot fails q v hcond2 h
      | false =>
        have hne : q ≠ cleanC (joinStr destDir e.name) :=
          hcond i (List.mem_cons_self _ _) e hge hd
        cases hro : restoreOne destDir fs e (fault i) with
        | mk fs1 r1 =>
          have h1 : fsFind fs1 q = some v := by
            have h2 := restoreOnePreserve destDir fs e (fault i) q v hne h
            rw [hro] at h2
            exact h2
          cases r1 with
          | none =>
            simp only [runWorkersTr, hge, hd, Bool.false_eq_true, if_false, hro]
            exact ih fs1 slot fails q v hcond2 h1
          | some msg =>
            simp only [runWorkersTr, hge, hd, Bool.false_eq_true, if_false, hro]
            exact ih fs1 _ _ q v hcond2 h1

theorem restoreOneSuccess (destDir : List Char) (fs : FS) (e : UEntry)
    (f : Option (List Char)) (fs2 : FS)
    (hnf : ∀ m c t, fsFind fs (cleanC (joinStr destDir e.name)) ≠
      some (FsNode.file m c t))
    (h : restoreOne destDir fs e f = (fs2, none)) :
    fsFind fs2 (cleanC (joinStr destDir e.name)) =
      some (FsNode.file e.mode e.content (some e.modified)) := by
  cases hg : ensureInside destDir (joinStr destDir e.name) with
  | some msg =>
    simp only [restoreOne, hg] at h
    exact Option.noConfusion (congrArg Prod.snd h)
  | none =>
    cases hmk : mkdirAll fs (parentC (cleanC (joinStr destDir e.name))) with
    | mk fs1 r1 =>
      cases r1 with
      | some msg =>
        simp only [restoreOne, hg, hmk] at h
        exact Option.noConfusion (congrArg Prod.snd h)
      | none =>
        cases f with
        | some msg =>
          simp only [restoreOne, hg, hmk] at h
          exact Option.noConfusion (congrArg Prod.snd h)
        | none =>
          cases hf1 : fsFind fs1 (cleanC (joinStr destDir e.name)) with
          | some n =>
            cases n with
            | dir m0 =>
              simp only [restoreOne, hg, hmk, createFile, hf1] at h
              exact Option.noConfusion (congrArg Prod.snd h)
            | file m0 c0 t0 =>
              exfalso
              apply hnf m0 c0 t0
              exact mkdirAllFileBack fs _ _ m0 c0 t0 (by rw [hmk]; exact hf1)
          | none =>
            simp only [restoreOne, hg, hmk, createFile, hf1] at h
            have hfs2 : fs2 = chtimes (fsSet fs1 (cleanC (joinStr destDir e.name))
                (FsNode.file e.mode e.content none)) (cleanC (joinStr destDir e.name))
                e.modified := (congrArg Prod.fst h).symm
            rw [hfs2]
            have hfind : fsFind (fsSet fs1 (cleanC (joinStr destDir e.name))
                (FsNode.file e.mode e.content none)) (cleanC (joinStr destDir e.name)) =
                some (FsNode.file e.mode e.content none) := by
              rw [fsFindSet, if_pos rfl]
            simp only [chtimes, hfind]
            rw [fsFindSet, if_pos rfl]

theorem restoreOneFailFileBack (destDir : List Char) (fs : FS) (e : UEntry)
    (f : Option (List Char)) (fs2 : FS) (msg : List Char)
    (h : restoreOne destDir fs e f = (fs2, some msg)) :
    ∀ (q : CPath) (m : Nat) (c : List Nat) (t : Option Int),
      fsFind fs2 q = some (FsNode.file m c t) →
      fsFind fs q = some (FsNode.file m c t) := by
  intro q m c t hq
  cases hg : ensureInside destDir (joinStr destDir e.name) with
  | some msg2 =>
    simp only [restoreOne, hg] at h
    have heq : fs = fs2 := congrArg Prod.fst h
    rw [← heq] at hq
    exact hq
  | none =>
    cases hmk : mkdirAll fs (parentC (cleanC (joinStr destDir e.name))) with
    | mk fs1 r1 =>
      have hback : fsFind fs1 q = some (FsNode.file m c t) →
          fsFind fs q = some (FsNode.file m c t) := fun h2 =>
        mkdirAllFileBack fs _ q m c t (by rw [hmk]; exact h2)
      cases r1 with
      | some msg2 =>
        simp only [restoreOne, hg, hmk] at h
        have heq : fs1 = fs2 := congrArg Prod.fst h
        rw [← heq] at hq
        exact hback hq
      | none =>
        cases f with
        | some msg2 =>
          simp only [restoreOne, hg, hmk] at h
          have heq : fs1 = fs2 := congrArg Prod.fst h
          rw [← heq] at hq
          exact hback hq
        | none =>
          cases hf1 : fsFind fs1 (cleanC (joinStr destDir e.name)) with
          | some n =>
            cases n with
            | dir m0 =>
              simp only [restoreOne, hg, hmk, createFile, hf1] at h
              have heq : fs1 = fs2 := congrArg Prod.fst h
              rw [← heq] at hq
              exact hback hq
            | file m0 c0 t0 =>
              simp only [restoreOne, hg, hmk, createFile, hf1] at h
              exact Option.noConfusion (congrArg Prod.snd h)
          | none =>
            simp only [restoreOne, hg, hmk, createFile, hf1] at h
            exact Option.noConfusion (congrArg Prod.snd h)

theorem restoreOneSuccFileBack (destDir : List Char) (fs : FS) (e : UEntry)
    (f : Option (List Char)) (fs2 : FS)
    (h : restoreOne destDir fs e f = (fs2, none)) :
    ∀ (q : CPath) (m : Nat) (c : List Nat) (t : Option Int),
      fsFind fs2 q = some (FsNode.file m c t) →
      q = cleanC (joinStr destDir e.name) ∨
        fsFind fs q = some (FsNode.file m c t) := by
  intro q m c t hq
  by_cases hqc : q = cleanC (joinStr destDir e.name)
  · exact Or.inl hqc
  · right
    cases hg : ensureInside destDir (joinStr destDir e.name) with
    | some msg =>
      simp only [restoreOne, hg] at h
      exact Option.noConfusion (congrArg Prod.snd h)
    | none =>
      cases hmk : mkdirAll fs (parentC (cleanC (joinStr destDir e.name))) with
      | mk fs1 r1 =>
        cases r1 with
        | some msg =>
          simp only [restoreOne, hg, hmk] at h
          exact Option.noConfusion (congrArg Prod.snd h)
        | none =>
          cases f with
          | some msg =>
            simp only [restoreOne, hg, hmk] at h
            exact Option.noConfusion (congrArg Prod.snd h)
          | none =>
            cases hcf : createFile fs1 (cleanC (joinStr destDir e.name))
                e.mode e.content with
            | mk fs3 r2 =>
              cases r2 with
              | some msg =>
                simp only [restoreOne, hg, hmk, hcf] at h
                exact Option.noConfusion (congrArg Prod.snd h)
              | none =>
                simp only [restoreOne, hg, hmk, hcf] at h
                have hfs2 : fs2 = chtimes fs3 (cleanC (joinStr destDir e.name))
                    e.modified := (congrArg Prod.fst h).symm
                rw [hfs2] at hq
                have hstep1 : fsFind (chtimes fs3 (cleanC (joinStr destDir e.name))
                    e.modified) q = fsFind fs3 q := by
                  by_contra hcon
                  exact hqc (chtimesChanged fs3 _ e.modified q hcon)
                rw [hstep1] at hq
                have hstep2 : fsFind fs3 q = fsFind fs1 q := by
                  by_contra hcon
                  apply hqc
                  apply createFileChanged fs1 (cleanC (joinStr destDir e.name))
                    e.mode e.content q
                  rw [hcf]
                  exact hcon
                rw [hstep2] at hq
                exact mkdirAllFileBack fs _ q m c t (by rw [hmk]; exact hq)

theorem runWorkersSlotEq (destDir : List Char) (entries : List UEntry)
    (fault : Nat → Option (List Char)) :
    ∀ (sched : List Nat) (fs : FS) (slot : Option (List Char))
      (fails : List (Nat × List Char)),
      slot = (fails.map Prod.snd).head? →
      (runWorkersTr destDir entries fault fs slot fails sched).2.1 =
        ((runWorkersTr destDir entries fault fs slot fails sched).2.2.map
          Prod.snd).head? := by
  intro sched
  induction sched with
  | nil => intro fs slot fails h; exact h
  | cons i is ih =>
    intro fs slot fails h
    cases hge : entries.get? i with
    | none =>
      simp only [runWorkersTr, hge]
      exact ih fs slot fails h
    | some e =>
      cases hd : e.isDir with
      | true =>
        simp only [runWorkersTr, hge, hd, if_true]
        exact ih fs slot fails h
      | false =>
        cases hro : restoreOne destDir fs e (fault i) with
        | mk fs1 r1 =>
          cases r1 with
          | none =>
            simp only [runWorkersTr, hge, hd, Bool.false_eq_true, if_false, hro]
            exact ih fs1 slot fails h
          | some msg =>
            simp only [runWorkersTr, hge, hd, Bool.false_eq_true, if_false, hro]
            apply ih
            cases fails with
            | nil =>
              simp only [List.map_nil, List.head?_nil] at h
              subst h
              simp [setErr]
            | cons p ps =>
              simp only [List.map_cons, List.head?_cons] at h
              subst h
              simp [setErr]

theorem runWorkersRestore (destDir : List Char) (entries : List UEntry)
    (fault : Nat → Option (List Char)) (htn : TgtDisjoint destDir entries) :
    ∀ (sched : List Nat) (fs : FS) (slot : Option (List Char))
      (fails : List (Nat × List Char)),
      sched.Nodup →
      (∀ (q : CPath) (m : Nat) (c : List Nat) (t : Option Int),
        fsFind fs q = some (FsNode.file m c t) →
        ∃ j, ∃ hj : j < entries.length, (entries.get ⟨j, hj⟩).isDir = false ∧
          q = cleanC (joinStr destDir (entries.get ⟨j, hj⟩).name) ∧ j ∉ sched) →
      ∀ i ∈ sched, ∀ e, entries.get? i = some e → e.isDir = false →
        i ∉ (runWorkersTr destDir entries fault fs slot fails sched).2.2.map
          Prod.fst →
        fsFind (runWorkersTr destDir entries fault fs slot fails sched).1
          (cleanC (joinStr destDir e.name)) =
          some (FsNode.file e.mode e.content (some e.modified)) := by
  intro sched
  induction sched with
  | nil => intro fs slot fails hnd hinv i hi; cases hi
  | cons i0 is ih =>
    intro fs slot fails hnd hinv i hi e hge hd hni
    have hnd2 : is.Nodup := (List.nodup_cons.mp hnd).2
    have hni0 : i0 ∉ is := (List.nodup_cons.mp hnd).1
    cases hge0 : entries.get? i0 with
    | none =>
      have hinv2 : ∀ (q : CPath) (m : Nat) (c : List Nat) (t : Option Int),
          fsFind fs q = some (FsNode.file m c t) →
          ∃ j, ∃ hj : j < entries.length, (entries.get ⟨j, hj⟩).isDir = false ∧
            q = cleanC (joinStr destDir (entries.get ⟨j, hj⟩).name) ∧ j ∉ is := by
        intro q m c t hq
        obtain ⟨j, hj, hdj, hqj, hjn⟩ := hinv q m c t hq
        exact ⟨j, hj, hdj, hqj, fun hm => hjn (List.mem_cons_of_mem _ hm)⟩
      simp only [runWorkersTr, hge0] at hni ⊢
      rcases List.mem_cons.mp hi with rfl | hmem
      · rw [hge0] at hge
        exact Option.noConfusion hge
      · exact ih fs slot fails hnd2 hinv2 i hmem e hge hd hni
    | some e0 =>
      obtain ⟨hlen0, hget0⟩ := List.get?_eq_some.mp hge0
      cases hd0 : e0.isDir with
      | true =>
        have hinv2 : ∀ (q : CPath) (m : Nat) (c : List Nat) (t : Option Int),
            fsFind fs q = some (FsNode.file m c t) →
            ∃ j, ∃ hj : j < entries.length, (entries.get ⟨j, hj⟩).isDir = false ∧
              q = cleanC (joinStr destDir (entries.get ⟨j, hj⟩).name) ∧ j ∉ is := by
          intro q m c t hq
          obtain ⟨j, hj, hdj, hqj, hjn⟩ := hinv q m c t hq
          exact ⟨j, hj, hdj, hqj, fun hm => hjn (List.mem_cons_of_mem _ hm)⟩
        simp only [runWorkersTr, hge0, hd0, if_true] at hni ⊢
        rcases List.mem_cons.mp hi with rfl | hmem
        · rw [hge0] at hge
          have he : e0 = e := Option.some.inj hge
          rw [← he] at hd
          rw [hd] at hd0
          exact Bool.noConfusion hd0
        · exact ih fs slot fails hnd2 hinv2 i hmem e hge hd hni
      | false =>
        cases hro : restoreOne destDir fs e0 (fault i0) with
        | mk fs1 r1 =>
          cases r1 with
          | none =>
            have hnf : ∀ m c t, fsFind fs (cleanC (joinStr destDir e0.name)) ≠
                some (FsNode.file m c t) := by
              intro m c t hcontra
              obtain ⟨j, hj, hdj, hqj, hjn⟩ := hinv _ m c t hcontra
              have hji0 : j ≠ i0 := by
                intro heq
                apply hjn
                rw [heq]
                exact List.mem_cons_self _ _
              have h3 := htn j hj i0 hlen0 hji0 hdj (by rw [hget0]; exact hd0)
              simp only [targetC, hget0] at h3
              exact h3 hqj.symm
            have hsucc := restoreOneSuccess destDir fs e0 (fault i0) fs1 hnf hro
            have hinv1 : ∀ (q : CPath) (m : Nat) (c : List Nat) (t : Option Int),
                fsFind fs1 q = some (FsNode.file m c t) →
                ∃ j, ∃ hj : j < entries.length, (entries.get ⟨j, hj⟩).isDir = false ∧
                  q = cleanC (joinStr destDir (entries.get ⟨j, hj⟩).name) ∧
                  j ∉ is := by
              intro q m c t hq
              rcases restoreOneSuccFileBack destDir fs e0 (fault i0) fs1 hro
                  q m c t hq with hqe | hold
              · exact ⟨i0, hlen0, by rw [hget0]; exact hd0,
                  by rw [hget0]; exact hqe, hni0⟩
              · obtain ⟨j, hj, hdj, hqj, hjn⟩ := hinv q m c t hold
                exact ⟨j, hj, hdj, hqj, fun hm => hjn (List.mem_cons_of_mem _ hm)⟩
            simp only [runWorkersTr, hge0, hd0, Bool.false_eq_true, if_false, hro]
              at hni ⊢
            rcases List.mem_cons.mp hi with rfl | hmem
            · rw [hge0] at hge
              have he : e0 = e := Option.some.inj hge
              rw [← he]
              refine runWorkersPreserve destDir entries fault is fs1 slot fails
                _ _ ?_ hsucc
              intro j hj ej hgej hdj
              obtain ⟨hlenj, hgetj⟩ := List.get?_eq_some.mp hgej
              have hji0 : i ≠ j := by
                intro heq
                apply hni0
                rw [heq]
                exact hj
              have h3 := htn i hlen0 j hlenj hji0 (by rw [hget0]; exact hd0)
                (by rw [hgetj]; exact hdj)
              simp only [targetC, hget0, hgetj] at h3
              exact h3
            · exact ih fs1 slot fails hnd2 hinv1 i hmem e hge hd hni
          | some msg =>
            have hinv1 : ∀ (q : CPath) (m : Nat) (c : List Nat) (t : Option Int),
                fsFind fs1 q = some (FsNode.file m c t) →
                ∃ j, ∃ hj : j < entries.length, (entries.get ⟨j, hj⟩).isDir = false ∧
                  q = cleanC (joinStr destDir (entries.get ⟨j, hj⟩).name) ∧
                  j ∉ is := by
              intro q m c t hq
              have hold := restoreOneFailFileBack destDir fs e0 (fault i0) fs1 msg
                hro q m c t hq
              obtain ⟨j, hj, hdj, hqj, hjn⟩ := hinv q m c t hold
              exact ⟨j, hj, hdj, hqj, fun hm => hjn (List.mem_cons_of_mem _ hm)⟩
            simp only [runWorkersTr, hge0, hd0, Bool.false_eq_true, if_false, hro]
              at hni ⊢
            rcases List.mem_cons.mp hi with rfl | hmem
            · exfalso
              apply hni
              have hmemf : (i, msg) ∈ (runWorkersTr destDir entries fault fs1
                  (setErr slot (some msg)) (fails ++ [(i, msg)]) is).2.2 :=
                runWorkersFailsMono destDir entries fault is fs1 _ _ _
                  (List.mem_append.mpr (Or.inr (List.mem_singleton.mpr rfl)))
              exact List.mem_map.mpr ⟨(i, msg), hmemf, rfl⟩
            · exact ih fs1 _ _ hnd2 hinv1 i hmem e hge hd hni

/-- Claim C6: with every file entry scheduled exactly once (the schedule is
a permutation of the file indices), distinct file entries restoring to
distinct destinations, and the destination-root creation and directory
pre-pass succeeding on an empty filesystem, the unpack operation returns
exactly the first entry of the failure trace — hence a non-nil error if
and only if at least one restore worker failed, and the reported error is
one of the genuine failures — and every file entry whose own restore did
not fail is fully restored: its destination holds its content with its
permission bits and its modification time. -/
theorem c6_error_and_restore (destDir : List Char) (entries : List UEntry)
    (fault : Nat → Option (List Char)) (sched : List Nat)
    (hperm : sched.Perm (fileIdxs entries))
    (htn : TgtDisjoint destDir entries)
    (h0 : (mkdirAll ([] : FS) (cleanC destDir)).2 = none)
    (h1 : (prePass destDir (mkdirAll ([] : FS) (cleanC destDir)).1 entries).2 =
      none) :
    (unzipParallelAllTr destDir entries fault sched []).2.1 =
      ((unzipParallelAllTr destDir entries fault sched []).2.2.map
        Prod.snd).head? ∧
    ((unzipParallelAllTr destDir entries fault sched []).2.1.isSome ↔
      (unzipParallelAllTr destDir entries fault sched []).2.2 ≠ []) ∧
    (∀ i e, entries.get? i = some e → e.isDir = false →
      i ∉ (unzipParallelAllTr destDir entries fault sched []).2.2.map Prod.fst →
      fsFind (unzipParallelAllTr destDir entries fault sched []).1
        (targetC destDir e) =
        some (FsNode.file e.mode e.content (some e.modified))) := by
  cases hmk : mkdirAll ([] : FS) (cleanC destDir) with
  | mk fs1 r1 =>
    rw [hmk] at h0 h1
    simp only at h0
    subst h0
    cases hpp : prePass destDir fs1 entries with
    | mk fs2 r2 =>
      rw [hpp] at h1
      simp only at h1
      subst h1
      have hout : unzipParallelAllTr destDir entries fault sched [] =
          runWorkersTr destDir entries fault fs2 none [] sched := by
        simp only [unzipParallelAllTr, hmk, hpp]
      rw [hout]
      have hnofile : ∀ (q : CPath) (m : Nat) (c : List Nat) (t : Option Int),
          fsFind fs2 q ≠ some (FsNode.file m c t) := by
        intro q m c t hq
        have h2 : fsFind fs1 q = some (FsNode.file m c t) :=
          prePassFileBack destDir entries fs1 q m c t (by rw [hpp]; exact hq)
        have h3 : fsFind ([] : FS) q = some (FsNode.file m c t) :=
          mkdirAllFileBack [] (cleanC destDir) q m c t (by rw [hmk]; exact h2)
        simp [fsFind] at h3
      have hnd : sched.Nodup := by
        have hfi : (fileIdxs entries).Nodup :=
          List.Nodup.filter _ (List.nodup_range _)
        exact hperm.nodup_iff.mpr hfi
      refine ⟨?_, ?_, ?_⟩
      · exact runWorkersSlotEq destDir entries fault sched fs2 none [] rfl
      · have heq := runWorkersSlotEq destDir entries fault sched fs2 none [] rfl
        rw [heq]
        cases hfl : (runWorkersTr destDir entries fault fs2 none [] sched).2.2 with
        | nil => simp
        | cons p ps => simp
      · intro i e hge hd hni
        have hlen : i < entries.length := by
          cases List.get?_eq_some.mp hge with
          | intro hl _ => exact hl
        have hifile : i ∈ fileIdxs entries := by
          simp only [fileIdxs, List.mem_filter, List.mem_range]
          refine ⟨hlen, ?_⟩
          rw [hge]
          simp [hd]
        have hisched : i ∈ sched := hperm.mem_iff.mpr hifile
        have hres := runWorkersRestore destDir entries fault htn sched fs2 none []
          hnd (fun q m c t hq => absurd hq (hnofile q m c t)) i hisched e hge hd hni
        simp only [targetC]
        exact hres

/-- Witness for C6: archive `[d/, d/f, d/g]` into root `out`, where the
stream of `d/g` (index 2) fails to open and the workers run in the order
2, 1: the run reports an error iff the failure trace is nonempty (it is),
and the non-failing entry `d/f` is fully restored with its bits and
stamp. -/
theorem c6_error_and_restore_witness :
    ((unzipParallelAllTr outDir [eDir, eGood, eBadF] (faultAt 2) [2, 1]
        []).2.1.isSome ↔
      (unzipParallelAllTr outDir [eDir, eGood, eBadF] (faultAt 2) [2, 1]
        []).2.2 ≠ []) ∧
    fsFind (unzipParallelAllTr outDir [eDir, eGood, eBadF] (faultAt 2) [2, 1]
        []).1 (targetC outDir eGood) =
      some (FsNode.file eGood.mode eGood.content (some eGood.modified)) := by
  have h := c6_error_and_restore outDir [eDir, eGood, eBadF] (faultAt 2) [2, 1]
    (by decide) (by decide) (by decide) (by decide)
  exact ⟨h.2.1, h.2.2 1 eGood (by decide) (by decide) (by decide)⟩
